import Mathlib

/-!
Shallow embedding of the `dns-rs` DNS codec and forwarding server
(`src/message.rs`, `src/server.rs`), together with theorems checking the
specification's claims against it.

Modelling conventions:
* Rust `u8`/`u16`/`u32` values are `Nat`s; wherever the Rust code can
  overflow or truncate (`as u8`, `as u16`, `<<` on `u8`, `-= 1` on `u16`)
  the embedding applies the corresponding `% 2^w` explicitly.
* A byte slice `&[u8]` is a `List Nat`; reading a byte (`nom`'s `be_u8`)
  reduces the value `% 256`, which is the identity on genuine bytes.
* `nom`'s `IResult` is `Except NomErr`; `nom::Err::Error`/`Failure` with
  their `ErrorKind` are the two constructors of `NomErr`.  The `complete`
  readers (`be_u8`, `be_u16`, `be_u32`, `take`) fail with `Eof` on short
  input; the code's explicit `nom::error::ErrorKind::Tag` failures map to
  `.NFailure .Tag`.
* Rust `String`s (produced by `String::from_utf8_lossy` and joined with
  `"."`) are byte lists; `.` is byte 46.
* `HashMap` is an association list with insert-replaces-key semantics;
  only lookups are ever observed, so iteration order is irrelevant.
* The `parse_label_seq` loop consumes at least one input byte per
  iteration; it is embedded with a fuel argument instantiated with
  `input.length + 1`, which can never be exhausted.
-/

namespace DnsRs

abbrev Bytes := List Nat

/-- Socket addresses are opaque tokens for the server model. -/
abbrev Addr := Nat

inductive ErrKind
  | Eof
  | Tag
deriving DecidableEq

/-- `nom::Err`: recoverable `Error` or unrecoverable `Failure`. -/
inductive NomErr
  | NError (k : ErrKind)
  | NFailure (k : ErrKind)
deriving DecidableEq

/-! ## Association-list model of `HashMap` -/

section AList

variable {α : Type}

def lookupA (k : Nat) : List (Nat × α) → Option α
  | [] => none
  | (k', v) :: rest => if k' = k then some v else lookupA k rest

/-- `HashMap::insert`: the new binding replaces any old one. -/
def insertA (k : Nat) (v : α) (m : List (Nat × α)) : List (Nat × α) :=
  (k, v) :: m.filter (fun p => p.1 != k)

/-- `HashMap::entry(k).and_modify(f)`. -/
def modifyA (k : Nat) (f : α → α) (m : List (Nat × α)) : List (Nat × α) :=
  m.map (fun p => if p.1 = k then (p.1, f p.2) else p)

/-- `HashMap::remove(k)` (the removed value is read separately via `lookupA`). -/
def removeA (k : Nat) (m : List (Nat × α)) : List (Nat × α) :=
  m.filter (fun p => p.1 != k)

/-- `for v in map.values_mut() { ... }`: update every stored value. -/
def mapValues (f : α → α) (m : List (Nat × α)) : List (Nat × α) :=
  m.map (fun p => (p.1, f p.2))

/-- `for (k, v) in name_map.iter() { table.insert(k, v) }`. -/
def commit (nm : List (Nat × α)) (tbl : List (Nat × α)) : List (Nat × α) :=
  nm.foldl (fun t p => insertA p.1 p.2 t) tbl

end AList

/-! ## `nom` primitive readers (complete variants) -/

def be_u8 : Bytes → Except NomErr (Bytes × Nat)
  | [] => .error (.NError .Eof)
  | b :: rest => .ok (rest, b % 256)

def be_u16 (bites : Bytes) : Except NomErr (Bytes × Nat) := do
  let (bites, b0) ← be_u8 bites
  let (bites, b1) ← be_u8 bites
  .ok (bites, b0 * 256 + b1)

def be_u32 (bites : Bytes) : Except NomErr (Bytes × Nat) := do
  let (bites, b0) ← be_u8 bites
  let (bites, b1) ← be_u8 bites
  let (bites, b2) ← be_u8 bites
  let (bites, b3) ← be_u8 bites
  .ok (bites, ((b0 * 256 + b1) * 256 + b2) * 256 + b3)

/-- `nom::bytes::complete::take(n)`. -/
def takeP (n : Nat) (bites : Bytes) : Except NomErr (Bytes × Bytes) :=
  if n ≤ bites.length then .ok (bites.drop n, bites.take n)
  else .error (.NError .Eof)

/-! ## `String::from_utf8_lossy`

Byte-level model of Rust's lossy UTF-8 decoding: well-formed sequences
are kept, each maximal invalid subpart is replaced by U+FFFD
(`EF BF BD`).  Only its behaviour on valid input (where it is the
identity) matters to the claims; the replacement policy follows the
Unicode "substitution of maximal subparts" used by Rust. -/

/-- The UTF-8 encoding of U+FFFD REPLACEMENT CHARACTER. -/
def rep : Bytes := [239, 191, 189]

def isCont (b : Nat) : Bool := 128 ≤ b && b ≤ 191

/-- Admissible second byte of a multi-byte sequence with lead `b`. -/
def validSecond (b c : Nat) : Bool :=
  if b = 224 then 160 ≤ c && c ≤ 191
  else if b = 237 then 128 ≤ c && c ≤ 159
  else if b = 240 then 144 ≤ c && c ≤ 191
  else if b = 244 then 128 ≤ c && c ≤ 143
  else isCont c

def utf8Lossy : Bytes → Bytes
  | [] => []
  | b :: rest =>
    if b < 128 then b :: utf8Lossy rest
    else if 194 ≤ b && b ≤ 223 then
      match rest with
      | [] => rep
      | c :: rest2 =>
        if isCont c then b :: c :: utf8Lossy rest2
        else rep ++ utf8Lossy (c :: rest2)
    else if 224 ≤ b && b ≤ 239 then
      match rest with
      | [] => rep
      | c :: rest2 =>
        if validSecond b c then
          match rest2 with
          | [] => rep
          | d :: rest3 =>
            if isCont d then b :: c :: d :: utf8Lossy rest3
            else rep ++ utf8Lossy (d :: rest3)
        else rep ++ utf8Lossy (c :: rest2)
    else if 240 ≤ b && b ≤ 244 then
      match rest with
      | [] => rep
      | c :: rest2 =>
        if validSecond b c then
          match rest2 with
          | [] => rep
          | d :: rest3 =>
            if isCont d then
              match rest3 with
              | [] => rep
              | e :: rest4 =>
                if isCont e then b :: c :: d :: e :: utf8Lossy rest4
                else rep ++ utf8Lossy (e :: rest4)
            else rep ++ utf8Lossy (d :: rest3)
        else rep ++ utf8Lossy (c :: rest2)
    else rep ++ utf8Lossy rest

/-! ## Record types (`QType`, `ResourceClass`) -/

inductive QType
  | A | NS | MD | MF | CNAME | SOA | MB | MG | MR | NULL | WKS | PTR
  | HINFO | MINFO | MX | TXT
deriving DecidableEq

def QType.value : QType → Nat
  | .A => 1
  | .NS => 2
  | .MD => 3
  | .MF => 4
  | .CNAME => 5
  | .SOA => 6
  | .MB => 7
  | .MG => 8
  | .MR => 9
  | .NULL => 10
  | .WKS => 11
  | .PTR => 12
  | .HINFO => 13
  | .MINFO => 14
  | .MX => 15
  | .TXT => 16

/-- `QType::from_value`; `bail!` on an unknown value is observed by the
callers only as failure, hence `Option`. -/
def QType.from_value : Nat → Option QType
  | 1 => some .A
  | 2 => some .NS
  | 3 => some .MD
  | 4 => some .MF
  | 5 => some .CNAME
  | 6 => some .SOA
  | 7 => some .MB
  | 8 => some .MG
  | 9 => some .MR
  | 10 => some .NULL
  | 11 => some .WKS
  | 12 => some .PTR
  | 13 => some .HINFO
  | 14 => some .MINFO
  | 15 => some .MX
  | 16 => some .TXT
  | _ => none

inductive ResourceClass
  | IN | CS | CH | HS
deriving DecidableEq

def ResourceClass.value : ResourceClass → Nat
  | .IN => 1
  | .CS => 2
  | .CH => 3
  | .HS => 4

def ResourceClass.from_value : Nat → Option ResourceClass
  | 1 => some .IN
  | 2 => some .CS
  | 3 => some .CH
  | 4 => some .HS
  | _ => none

/-! ## Header -/

structure Header where
  id : Nat
  qr : Bool
  opcode : Nat
  aa : Bool
  tc : Bool
  rd : Bool
  ra : Bool
  z : Nat
  rcode : Nat
  qdcount : Nat
  ancount : Nat
  nscount : Nat
  arcount : Nat
deriving DecidableEq

/-- `Header::to_bytes` (the twelve header bytes; `u8` shifts wrap `% 256`). -/
def Header.to_bytes (h : Header) : Bytes :=
  [ (h.id >>> 8) % 256, h.id % 256,
    (if h.qr then 128 else 0) |||
      (((h.opcode <<< 3) % 256) &&& 120) |||
      (if h.aa then 4 else 0) |||
      (if h.tc then 2 else 0) |||
      (if h.rd then 1 else 0),
    (if h.ra then 128 else 0) |||
      (((h.z <<< 4) % 256) &&& 112) |||
      (h.rcode &&& 15),
    (h.qdcount >>> 8) % 256, h.qdcount % 256,
    (h.ancount >>> 8) % 256, h.ancount % 256,
    (h.nscount >>> 8) % 256, h.nscount % 256,
    (h.arcount >>> 8) % 256, h.arcount % 256 ]

def Header.parse (bites : Bytes) : Except NomErr (Bytes × Header) := do
  let (bites, id) ← be_u16 bites
  let (bites, sec_bite) ← be_u8 bites
  let qr := sec_bite &&& 128 == 128
  let opcode := (sec_bite &&& 120) >>> 3
  let aa := sec_bite &&& 4 == 4
  let tc := sec_bite &&& 2 == 2
  let rd := sec_bite &&& 1 == 1
  let (bites, third_bite) ← be_u8 bites
  let ra := third_bite &&& 128 == 128
  let z := (third_bite &&& 112) >>> 4
  let rcode := third_bite &&& 15
  let (bites, qdcount) ← be_u16 bites
  let (bites, ancount) ← be_u16 bites
  let (bites, nscount) ← be_u16 bites
  let (bites, arcount) ← be_u16 bites
  .ok (bites, { id, qr, opcode, aa, tc, rd, ra, z, rcode,
                qdcount, ancount, nscount, arcount })

/-! ## Questions, answers, messages -/

structure Question where
  tipe : QType
  cls : ResourceClass
  name : List Bytes
deriving DecidableEq

structure Answer where
  name : List Bytes
  tipe : QType
  cls : ResourceClass
  ttl : Nat
  rdlength : Nat
  rdata : Bytes
deriving DecidableEq

/-- A `Message` without its private `label_offsets` map (the map never
feeds `to_bytes` and is excluded from the equality the spec talks
about); during parsing the map is threaded separately as `tbl`. -/
structure Message where
  header : Header
  questions : List Question
  answers : List Answer
deriving DecidableEq

/-- The label-sequence wire form shared by `Question::to_bytes` and
`Answer::to_bytes`: `for label in name { push(len as u8); extend(bytes) }`
followed by the terminating zero octet. -/
def encodeName (name : List Bytes) : Bytes :=
  (name.flatMap (fun label => (label.length % 256) :: label)) ++ [0]

def Question.to_bytes (q : Question) : Bytes :=
  encodeName q.name ++
    [ (q.tipe.value >>> 8) % 256, q.tipe.value % 256,
      (q.cls.value >>> 8) % 256, q.cls.value % 256 ]

def Answer.to_bytes (a : Answer) : Bytes :=
  (encodeName a.name ++
    [ (a.tipe.value >>> 8) % 256, a.tipe.value % 256,
      (a.cls.value >>> 8) % 256, a.cls.value % 256,
      (a.ttl >>> 24) % 256, (a.ttl >>> 16) % 256,
      (a.ttl >>> 8) % 256, a.ttl % 256 ]) ++
  ((a.rdlength >>> 8) % 256 :: a.rdlength % 256 :: a.rdata)

def Message.to_bytes (m : Message) : Bytes :=
  m.header.to_bytes ++
    (m.questions.flatMap Question.to_bytes ++ m.answers.flatMap Answer.to_bytes)

/-- `Message::is_compressed_label`. -/
def is_compressed_label (bite : Nat) : Bool := bite &&& 192 == 192

/-- `name.join(".")`. -/
def joinDot : List Bytes → Bytes
  | [] => []
  | l :: ls => l ++ ls.flatMap (fun x => 46 :: x)

/-- The compression table: decoded-offset ↦ suffix string. -/
abbrev LTable := List (Nat × Bytes)

/-- The body of `Message::parse_label_seq`'s `loop`.  On entry `len` is
the length/pointer octet just read and `off` is `parse_offset` counted
past it.  Returns `(remaining input, name, name_map, parse_offset)`.
Each iteration consumes at least one byte of `bites`, so the fuel —
instantiated with `bites.length + 1` by `parse_label_seq` — never runs
out (the fuel-0 branch is unreachable). -/
def parseLabelLoop (fuel : Nat) (tbl : LTable) (nameMap : LTable)
    (name : List Bytes) (bites : Bytes) (off : Nat) (len : Nat) :
    Except NomErr (Bytes × List Bytes × LTable × Nat) :=
  match fuel with
  | 0 => .error (.NError .Eof)
  | fuel + 1 =>
    if is_compressed_label len then
      match bites with
      | [] => .error (.NError .Eof)
      | o :: rest =>
        let off2 := off + 1
        let ptr := ((len &&& 63) <<< 8) ||| (o % 256)
        match lookupA ptr tbl with
        | some label =>
          let name2 := name ++ [label]
          .ok (rest, name2, insertA (off2 - 1) (joinDot name2) nameMap, off2)
        | none => .error (.NFailure .Tag)
    else
      if len ≤ bites.length then
        let label := utf8Lossy (bites.take len)
        let name2 := name ++ [label]
        let nm2 := insertA (off - 1) label
          (mapValues (fun v => v ++ 46 :: label) nameMap)
        match bites.drop len with
        | [] => .error (.NError .Eof)
        | l2 :: rest2 =>
          let off3 := off + len + 1
          if l2 % 256 = 0 then .ok (rest2, name2, nm2, off3)
          else parseLabelLoop fuel tbl nm2 name2 rest2 off3 (l2 % 256)
      else .error (.NError .Eof)

/-- `Message::parse_label_seq`.  `tbl` plays the role of
`self.label_offsets`; the final `for (k, v) in name_map` loop is
`commit`. -/
def parse_label_seq (tbl : LTable) (bites : Bytes) (off : Nat) :
    Except NomErr (Bytes × List Bytes × LTable × Nat) :=
  match be_u8 bites with
  | .error e => .error e
  | .ok (rest, len) =>
    match parseLabelLoop (rest.length + 1) tbl [] [] rest (off + 1) len with
    | .error e => .error e
    | .ok (bites2, name, nameMap, off2) =>
      .ok (bites2, name, commit nameMap tbl, off2)

/-- `Question::parse` (threading the compression table and offset). -/
def Question.parse (tbl : LTable) (bites : Bytes) (off : Nat) :
    Except NomErr (Bytes × Question × LTable × Nat) := do
  let (bites, name, tbl, off) ← parse_label_seq tbl bites off
  let (bites, tipeVal) ← be_u16 bites
  let off := off + 2
  match QType.from_value tipeVal with
  | none => .error (.NFailure .Tag)
  | some tipe => do
    let (bites, clsVal) ← be_u16 bites
    let off := off + 2
    match ResourceClass.from_value clsVal with
    | none => .error (.NFailure .Tag)
    | some cls => .ok (bites, { tipe, cls, name }, tbl, off)

/-- `Answer::parse`. -/
def Answer.parse (tbl : LTable) (bites : Bytes) (off : Nat) :
    Except NomErr (Bytes × Answer × LTable × Nat) := do
  let (bites, name, tbl, off) ← parse_label_seq tbl bites off
  let (bites, tipeVal) ← be_u16 bites
  let off := off + 2
  match QType.from_value tipeVal with
  | none => .error (.NFailure .Tag)
  | some tipe => do
    let (bites, clsVal) ← be_u16 bites
    let off := off + 2
    match ResourceClass.from_value clsVal with
    | none => .error (.NFailure .Tag)
    | some cls => do
      let (bites, ttl) ← be_u32 bites
      let (bites, rdlength) ← be_u16 bites
      let (bites, rdata) ← takeP rdlength bites
      let off := off + 6 + rdlength
      .ok (bites, { name, tipe, cls, ttl, rdlength, rdata }, tbl, off)

/-- `for _ in 0..qdcount { parse a question }`. -/
def parseQuestions : Nat → LTable → Bytes → Nat →
    Except NomErr (Bytes × List Question × LTable × Nat)
  | 0, tbl, bites, off => .ok (bites, [], tbl, off)
  | n + 1, tbl, bites, off => do
    let (bites, q, tbl, off) ← Question.parse tbl bites off
    let (bites, qs, tbl, off) ← parseQuestions n tbl bites off
    .ok (bites, q :: qs, tbl, off)

/-- `for _ in 0..ancount { parse an answer }`. -/
def parseAnswers : Nat → LTable → Bytes → Nat →
    Except NomErr (Bytes × List Answer × LTable × Nat)
  | 0, tbl, bites, off => .ok (bites, [], tbl, off)
  | n + 1, tbl, bites, off => do
    let (bites, a, tbl, off) ← Answer.parse tbl bites off
    let (bites, as_, tbl, off) ← parseAnswers n tbl bites off
    .ok (bites, a :: as_, tbl, off)

/-- `Message::parse`: header, then `qdcount` questions, then `ancount`
answers; whatever is left is returned unconsumed. -/
def Message.parse (bites : Bytes) : Except NomErr (Bytes × Message) := do
  let (bites, header) ← Header.parse bites
  let (bites, questions, tbl, off) ← parseQuestions header.qdcount [] bites 12
  let (bites, answers, _, _) ← parseAnswers header.ancount tbl bites off
  .ok (bites, { header, questions, answers })

/-! ## The forwarding server (`src/server.rs`) -/

structure DnsServer where
  resolver : Option Addr
  /-- id ↦ (outstanding count, client address). -/
  source_map : List (Nat × (Nat × Addr))
  orig_messages : List (Nat × Message)
deriving DecidableEq

/-- `DnsServer::update_message` (the stub responder). -/
def DnsServer.update_message (m : Message) : Message :=
  let header := { m.header with
    qr := true, aa := false, tc := false, ra := false, z := 0,
    qdcount := m.questions.length % 65536,
    ancount := m.questions.length % 65536 }
  let questions := m.questions.map (fun q =>
    { q with tipe := QType.A, cls := ResourceClass.IN })
  let answers := questions.map (fun q =>
    { name := q.name, tipe := QType.A, cls := ResourceClass.IN,
      ttl := 60, rdlength := 4, rdata := [127, 0, 0, 1] : Answer })
  { header, questions, answers }

/-- `DnsServer::process`.  `socket.send_to` is modelled by accumulating
`(bytes, destination)` pairs; a `.unwrap()` panic is `none`.  The
`*cnt -= 1` on `u16` is modelled with release-mode wrapping. -/
def DnsServer.process (s : DnsServer) (m : Message) (source : Addr) :
    Option (DnsServer × List (Bytes × Addr)) :=
  match s.resolver with
  | none =>
    let m2 := DnsServer.update_message m
    some (s, [(m2.to_bytes, source)])
  | some resolver =>
    if m.header.qr then
      let sm := modifyA m.header.id
        (fun p => ((p.1 + 65535) % 65536, p.2)) s.source_map
      let om := modifyA m.header.id
        (fun msg => { msg with
          header := { msg.header with
            ancount := (msg.header.ancount + 1) % 65536,
            qr := true, rcode := 4 },
          answers := msg.answers ++ m.answers }) s.orig_messages
      match lookupA m.header.id sm with
      | none => none
      | some (cnt, dest) =>
        if cnt ≤ 0 then
          match lookupA m.header.id om with
          | some msg =>
            let msg := { msg with header := { msg.header with
              ancount := msg.answers.length % 65536 } }
            some ({ s with source_map := removeA m.header.id sm,
                           orig_messages := removeA m.header.id om },
                  [(msg.to_bytes, dest)])
          | none =>
            some ({ s with source_map := removeA m.header.id sm,
                           orig_messages := om }, [])
        else
          some ({ s with source_map := sm, orig_messages := om }, [])
    else
      let sm := insertA m.header.id
        (m.questions.length % 65536, source) s.source_map
      let sent := m.questions.map (fun q =>
        let m2 := { m with header := { m.header with qdcount := 1 },
                           questions := [q] }
        (m2.to_bytes, resolver))
      let om := insertA m.header.id { m with answers := [] } s.orig_messages
      some ({ s with source_map := sm, orig_messages := om }, sent)

end DnsRs

/-! # Lemmas -/

namespace DnsRs

/-- Decidable equality for parse results. -/
def exceptDecEq {ε α : Type} [DecidableEq ε] [DecidableEq α] :
    DecidableEq (Except ε α) := fun x y =>
  match x, y with
  | .error e, .error f =>
    match decEq e f with
    | isTrue h => isTrue (h ▸ rfl)
    | isFalse h => isFalse fun c => h (by cases c; rfl)
  | .ok a, .ok b =>
    match decEq a b with
    | isTrue h => isTrue (h ▸ rfl)
    | isFalse h => isFalse fun c => h (by cases c; rfl)
  | .error _, .ok _ => isFalse fun c => by cases c
  | .ok _, .error _ => isFalse fun c => by cases c

instance {ε α : Type} [DecidableEq ε] [DecidableEq α] :
    DecidableEq (Except ε α) := exceptDecEq

/-! ## Arithmetic helpers -/

theorem u16_bytes_round (v : Nat) (h : v < 65536) :
    ((v >>> 8) % 256) * 256 + v % 256 = v := by
  rw [Nat.shiftRight_eq_div_pow]; omega

theorem u32_bytes_round (v : Nat) (h : v < 4294967296) :
    (((((v >>> 24) % 256) * 256 + (v >>> 16) % 256) * 256 + (v >>> 8) % 256)
        * 256 + v % 256) = v := by
  simp only [Nat.shiftRight_eq_div_pow]; omega

theorem not_compressed_of_le_63 (len : Nat) (h : len ≤ 63) :
    is_compressed_label len = false := by
  have h2 : len &&& 192 ≤ 63 := le_trans (Nat.and_le_left) h
  simp only [is_compressed_label, beq_eq_false_iff_ne, ne_eq]
  omega

/-! ## Association-list lemmas -/

theorem lookupA_filter_ne {α : Type} (k k' : Nat) (m : List (Nat × α))
    (hk : ¬ k' = k) :
    lookupA k (m.filter (fun p => p.1 != k')) = lookupA k m := by
  induction m with
  | nil => rfl
  | cons p rest ih =>
    rw [List.filter_cons]
    by_cases hp : p.1 = k'
    · have hb : (p.1 != k') = false := by simp [hp]
      rw [hb]
      simp only [Bool.false_eq_true, if_false, lookupA]
      rw [if_neg (by omega : ¬ p.1 = k)]
      exact ih
    · have hb : (p.1 != k') = true := by simp [hp]
      rw [hb]
      simp only [if_true, lookupA, ih]

theorem lookupA_insertA {α : Type} (k k' : Nat) (v : α) (m : List (Nat × α)) :
    lookupA k (insertA k' v m) =
      if k' = k then some v else lookupA k m := by
  simp only [insertA, lookupA]
  by_cases hk : k' = k
  · simp [hk]
  · rw [if_neg hk, if_neg hk, lookupA_filter_ne k k' m hk]

theorem lookupA_mapValues {α : Type} (f : α → α) (k : Nat)
    (m : List (Nat × α)) :
    lookupA k (mapValues f m) = (lookupA k m).map f := by
  induction m with
  | nil => rfl
  | cons p rest ih =>
    simp only [mapValues, List.map_cons, lookupA] at ih ⊢
    by_cases hp : p.1 = k <;> simp [hp, ih]

/-- Keys of an association list. -/
def keysA {α : Type} (m : List (Nat × α)) : List Nat := m.map Prod.fst

theorem keysA_insertA_subset {α : Type} (k k' : Nat) (v : α)
    (m : List (Nat × α)) (h : k' ∈ keysA (insertA k v m)) :
    k' = k ∨ k' ∈ keysA m := by
  simp only [keysA, insertA, List.map_cons, List.mem_cons] at h
  rcases h with h | h
  · exact Or.inl h
  · right
    simp only [keysA, List.mem_map] at h ⊢
    obtain ⟨p, hp, hpv⟩ := h
    exact ⟨p, (List.mem_filter.mp hp).1, hpv⟩

theorem commit_cons {α : Type} (p : Nat × α) (rest tbl : List (Nat × α)) :
    commit (p :: rest) tbl = commit rest (insertA p.1 p.2 tbl) := rfl

theorem lookupA_commit_not_mem {α : Type} (k : Nat) (nm tbl : List (Nat × α))
    (h : k ∉ keysA nm) :
    lookupA k (commit nm tbl) = lookupA k tbl := by
  induction nm generalizing tbl with
  | nil => rfl
  | cons p rest ih =>
    simp only [keysA, List.map_cons, List.mem_cons, not_or] at h
    rw [commit_cons, ih _ (by simpa [keysA] using h.2), lookupA_insertA,
      if_neg (by omega : ¬ p.1 = k)]

/-- Keys pairwise distinct. -/
def nodupKeys {α : Type} (m : List (Nat × α)) : Prop := (keysA m).Nodup

theorem nodupKeys_insertA {α : Type} (k : Nat) (v : α) (m : List (Nat × α))
    (h : nodupKeys m) : nodupKeys (insertA k v m) := by
  simp only [nodupKeys, keysA, insertA, List.map_cons, List.nodup_cons]
  constructor
  · intro hmem
    simp only [List.mem_map] at hmem
    obtain ⟨p, hp, hpv⟩ := hmem
    have := (List.mem_filter.mp hp).2
    simp [bne_iff_ne, hpv] at this
  · exact List.Nodup.sublist ((List.filter_sublist m).map Prod.fst) h

theorem nodupKeys_mapValues {α : Type} (f : α → α) (m : List (Nat × α))
    (h : nodupKeys m) : nodupKeys (mapValues f m) := by
  simpa [nodupKeys, keysA, mapValues, List.map_map, Function.comp] using h

theorem lookupA_commit_of_mem {α : Type} (k : Nat) (v : α)
    (nm tbl : List (Nat × α)) (hnd : nodupKeys nm)
    (h : lookupA k nm = some v) :
    lookupA k (commit nm tbl) = some v := by
  induction nm generalizing tbl with
  | nil => simp [lookupA] at h
  | cons p rest ih =>
    simp only [nodupKeys, keysA, List.map_cons, List.nodup_cons] at hnd
    rw [commit_cons]
    simp only [lookupA] at h
    by_cases hp : p.1 = k
    · subst hp
      simp only [if_pos] at h
      rw [lookupA_commit_not_mem _ _ _ (by simpa [keysA] using hnd.1),
        lookupA_insertA, if_pos rfl]
      simpa using h
    · rw [if_neg hp] at h
      exact ih _ (by simpa [nodupKeys, keysA] using hnd.2) h


/-! ## Well-formed labels and the wire form of a name -/

/-- A label the round-trip claims quantify over: 1–63 bytes long and
unchanged by lossy UTF-8 decoding. -/
def labelWf (l : Bytes) : Prop :=
  1 ≤ l.length ∧ l.length ≤ 63 ∧ utf8Lossy l = l

instance (l : Bytes) : Decidable (labelWf l) := by
  unfold labelWf; infer_instance

/-- The label bytes of a name without the terminating zero octet. -/
def encLabels (name : List Bytes) : Bytes :=
  name.flatMap (fun label => (label.length % 256) :: label)

theorem encodeName_eq (n : List Bytes) : encodeName n = encLabels n ++ [0] := rfl

/-- Byte offset (relative to the name start) of the `i`-th label's
length octet. -/
def prefLen (n : List Bytes) (i : Nat) : Nat :=
  ((n.take i).map (fun l => l.length + 1)).sum

/-- Specification of the `name_map` built by the `parse_label_seq` loop
while reading plain labels: entry `p` for each label start, every older
entry extended with `"." ++ label`. -/
def specMap : LTable → Nat → List Bytes → LTable
  | nm, _, [] => nm
  | nm, p, l :: ls =>
    specMap (insertA p l (mapValues (fun v => v ++ 46 :: l) nm))
      (p + l.length + 1) ls

theorem lookupA_specMap_lt (ls : List Bytes) :
    ∀ (nm : LTable) (p k : Nat) (v : Bytes),
      lookupA k nm = some v → k < p →
      lookupA k (specMap nm p ls) =
        some (v ++ ls.flatMap (fun x => 46 :: x)) := by
  induction ls with
  | nil => intro nm p k v h _; simpa [specMap] using h
  | cons l ls ih =>
    intro nm p k v h hk
    simp only [specMap]
    have h2 : lookupA k (insertA p l (mapValues (fun v => v ++ 46 :: l) nm))
        = some (v ++ 46 :: l) := by
      rw [lookupA_insertA, if_neg (by omega), lookupA_mapValues, h]
      rfl
    rw [ih _ _ _ _ h2 (by omega)]
    simp [List.flatMap_cons, List.append_assoc]

theorem lookupA_specMap_self (n : List Bytes) :
    ∀ (nm : LTable) (p i : Nat), i < n.length →
      lookupA (p + prefLen n i) (specMap nm p n) =
        some (joinDot (n.drop i)) := by
  induction n with
  | nil => intro _ _ i h; simp at h
  | cons l ls ih =>
    intro nm p i h
    match i with
    | 0 =>
      simp only [prefLen, List.take_zero, List.map_nil, List.sum_nil,
        Nat.add_zero, List.drop_zero, specMap]
      rw [lookupA_specMap_lt ls _ _ _ l ?_ (by omega)]
      · rfl
      · rw [lookupA_insertA, if_pos rfl]
    | i + 1 =>
      simp only [List.length_cons] at h
      have hpre : prefLen (l :: ls) (i + 1) = (l.length + 1) + prefLen ls i := by
        simp [prefLen, List.take_succ_cons]
      rw [hpre]
      simp only [specMap, List.drop_succ_cons]
      have := ih (insertA p l (mapValues (fun v => v ++ 46 :: l) nm))
        (p + l.length + 1) i (by omega)
      rw [show p + (l.length + 1 + prefLen ls i) =
        p + l.length + 1 + prefLen ls i from by omega]
      exact this

theorem nodupKeys_specMap (n : List Bytes) :
    ∀ (nm : LTable) (p : Nat), nodupKeys nm → nodupKeys (specMap nm p n) := by
  induction n with
  | nil => intro nm p h; exact h
  | cons l ls ih =>
    intro nm p h
    exact ih _ _ (nodupKeys_insertA _ _ _ (nodupKeys_mapValues _ _ h))


/-- One unfolding of the loop for a plain (non-pointer) length octet. -/
theorem parseLabelLoop_step_plain (f : Nat) (tbl nm : LTable)
    (name : List Bytes) (bites : Bytes) (off len : Nat) (l2 : Nat)
    (rest2 : Bytes) (hcomp : is_compressed_label len = false)
    (hlen : len ≤ bites.length) (hdrop : bites.drop len = l2 :: rest2) :
    parseLabelLoop (f + 1) tbl nm name bites off len =
      (if l2 % 256 = 0 then
        .ok (rest2, name ++ [utf8Lossy (bites.take len)],
          insertA (off - 1) (utf8Lossy (bites.take len))
            (mapValues (fun v => v ++ 46 :: utf8Lossy (bites.take len)) nm),
          off + len + 1)
      else
        parseLabelLoop f tbl
          (insertA (off - 1) (utf8Lossy (bites.take len))
            (mapValues (fun v => v ++ 46 :: utf8Lossy (bites.take len)) nm))
          (name ++ [utf8Lossy (bites.take len)]) rest2 (off + len + 1)
          (l2 % 256)) := by
  simp only [parseLabelLoop, hcomp, Bool.false_eq_true, if_false,
    if_pos hlen, hdrop]

/-- One unfolding of the loop for a pointer octet. -/
theorem parseLabelLoop_step_ptr (f : Nat) (tbl nm : LTable)
    (name : List Bytes) (o : Nat) (rest : Bytes) (off len : Nat)
    (hcomp : is_compressed_label len = true) :
    parseLabelLoop (f + 1) tbl nm name (o :: rest) off len =
      (match lookupA (((len &&& 63) <<< 8) ||| (o % 256)) tbl with
      | some label =>
        .ok (rest, name ++ [label],
          insertA off (joinDot (name ++ [label])) nm, off + 1)
      | none => .error (.NFailure .Tag)) := by
  simp only [parseLabelLoop, hcomp, if_true, Nat.add_sub_cancel]

theorem parseLabelLoop_labels (ls : List Bytes) :
    ∀ (l : Bytes) (name : List Bytes) (nm tbl : LTable) (p : Nat)
      (rest : Bytes) (fuel : Nat),
      labelWf l → (∀ x ∈ ls, labelWf x) →
      (l ++ (encLabels ls ++ 0 :: rest)).length < fuel →
      parseLabelLoop fuel tbl nm name (l ++ (encLabels ls ++ 0 :: rest))
          (p + 1) (l.length % 256)
        = .ok (rest, name ++ l :: ls, specMap nm p (l :: ls),
               p + (encLabels (l :: ls)).length + 1) := by
  induction ls with
  | nil =>
    intro l name nm tbl p rest fuel hl _ hfuel
    obtain ⟨hl1, hl63, hlossy⟩ := hl
    simp only [encLabels, List.flatMap_nil, List.nil_append] at hfuel ⊢
    cases fuel with
    | zero => omega
    | succ f =>
      have hmod : l.length % 256 = l.length := Nat.mod_eq_of_lt (by omega)
      rw [parseLabelLoop_step_plain f tbl nm name _ (p + 1) _ 0 rest
        (by rw [hmod]; exact not_compressed_of_le_63 _ hl63)
        (by rw [hmod]; simp)
        (by rw [hmod]; exact List.drop_left l (0 :: rest))]
      rw [if_pos (by simp)]
      rw [hmod, List.take_left, hlossy]
      simp only [specMap, Nat.add_sub_cancel, List.flatMap_cons,
        List.flatMap_nil, List.append_nil, List.length_cons,
        Except.ok.injEq, Prod.mk.injEq]
      exact ⟨trivial, trivial, trivial, by omega⟩
  | cons l1 ls ih =>
    intro l name nm tbl p rest fuel hl hwf hfuel
    obtain ⟨hl1, hl63, hlossy⟩ := hl
    have hwf1 : labelWf l1 := hwf l1 (by simp)
    have h11 : 1 ≤ l1.length := hwf1.1
    have h163 : l1.length ≤ 63 := hwf1.2.1
    cases fuel with
    | zero => omega
    | succ f =>
      have hmod : l.length % 256 = l.length := Nat.mod_eq_of_lt (by omega)
      have hmod1 : l1.length % 256 = l1.length := Nat.mod_eq_of_lt (by omega)
      have hshape : (l ++ (encLabels (l1 :: ls) ++ 0 :: rest)).drop
            (l.length % 256)
          = l1.length :: (l1 ++ (encLabels ls ++ 0 :: rest)) := by
        rw [hmod, List.drop_left]
        simp [encLabels, List.flatMap_cons, List.append_assoc, hmod1]
      rw [parseLabelLoop_step_plain f tbl nm name _ (p + 1) _ l1.length
        (l1 ++ (encLabels ls ++ 0 :: rest))
        (by rw [hmod]; exact not_compressed_of_le_63 _ hl63)
        (by rw [hmod]; simp) hshape]
      rw [if_neg (by omega)]
      rw [hmod, List.take_left, hlossy]
      have harith : p + 1 + l.length + 1 = p + l.length + 1 + 1 := by omega
      rw [harith]
      rw [ih l1 (name ++ [l])
        (insertA (p + 1 - 1) l (mapValues (fun v => v ++ 46 :: l) nm)) tbl
        (p + l.length + 1) rest f hwf1 (fun x hx => hwf x (by simp [hx]))
        (by simp only [encLabels, List.flatMap_cons, List.length_append,
              List.length_cons] at hfuel ⊢
            omega)]
      simp only [specMap, Nat.add_sub_cancel, List.append_assoc,
        List.cons_append, List.nil_append, Except.ok.injEq, Prod.mk.injEq,
        encLabels, List.flatMap_cons, List.length_append, List.length_cons]
      exact ⟨trivial, trivial, trivial, by omega⟩


theorem parseLabelLoop_labels_ptr (ls : List Bytes) :
    ∀ (l : Bytes) (name : List Bytes) (nm tbl : LTable) (p : Nat)
      (hi lo : Nat) (sfx : Bytes) (rest : Bytes) (fuel : Nat),
      labelWf l → (∀ x ∈ ls, labelWf x) →
      hi < 256 → is_compressed_label hi = true →
      lookupA (((hi &&& 63) <<< 8) ||| (lo % 256)) tbl = some sfx →
      (l ++ (encLabels ls ++ hi :: lo :: rest)).length < fuel →
      parseLabelLoop fuel tbl nm name
          (l ++ (encLabels ls ++ hi :: lo :: rest)) (p + 1) (l.length % 256)
        = .ok (rest, (name ++ l :: ls) ++ [sfx],
               insertA (p + (encLabels (l :: ls)).length + 1)
                 (joinDot ((name ++ l :: ls) ++ [sfx]))
                 (specMap nm p (l :: ls)),
               p + (encLabels (l :: ls)).length + 2) := by
  induction ls with
  | nil =>
    intro l name nm tbl p hi lo sfx rest fuel hl _ hhi hcomp hlook hfuel
    obtain ⟨hl1, hl63, hlossy⟩ := hl
    have hhi192 : 192 ≤ hi := by
      have h1 : hi &&& 192 = 192 := by
        simpa [is_compressed_label] using hcomp
      have h2 : hi &&& 192 ≤ hi := Nat.and_le_left
      omega
    simp only [encLabels, List.flatMap_nil, List.nil_append] at hfuel ⊢
    cases fuel with
    | zero => omega
    | succ f =>
      have hmod : l.length % 256 = l.length := Nat.mod_eq_of_lt (by omega)
      rw [parseLabelLoop_step_plain f tbl nm name _ (p + 1) _ hi (lo :: rest)
        (by rw [hmod]; exact not_compressed_of_le_63 _ hl63)
        (by rw [hmod]; simp)
        (by rw [hmod]; exact List.drop_left l (hi :: lo :: rest))]
      rw [if_neg (by omega)]
      rw [hmod, List.take_left, hlossy]
      rw [Nat.mod_eq_of_lt (by omega : hi < 256)]
      cases f with
      | zero => simp at hfuel
      | succ f2 =>
        rw [parseLabelLoop_step_ptr f2 tbl _ _ lo rest _ hi hcomp]
        rw [hlook]
        simp only [specMap, Nat.add_sub_cancel, List.flatMap_cons,
          List.flatMap_nil, List.append_nil, List.length_cons,
          List.append_assoc, List.cons_append, List.nil_append,
          Except.ok.injEq, Prod.mk.injEq]
        refine ⟨trivial, trivial, ?_, by omega⟩
        congr 1
        all_goals first
        | rfl
        | omega
  | cons l1 ls ih =>
    intro l name nm tbl p hi lo sfx rest fuel hl hwf hhi hcomp hlook hfuel
    obtain ⟨hl1, hl63, hlossy⟩ := hl
    have hwf1 : labelWf l1 := hwf l1 (by simp)
    have h11 : 1 ≤ l1.length := hwf1.1
    have h163 : l1.length ≤ 63 := hwf1.2.1
    cases fuel with
    | zero => omega
    | succ f =>
      have hmod : l.length % 256 = l.length := Nat.mod_eq_of_lt (by omega)
      have hmod1 : l1.length % 256 = l1.length := Nat.mod_eq_of_lt (by omega)
      have hshape : (l ++ (encLabels (l1 :: ls) ++ hi :: lo :: rest)).drop
            (l.length % 256)
          = l1.length :: (l1 ++ (encLabels ls ++ hi :: lo :: rest)) := by
        rw [hmod, List.drop_left]
        simp [encLabels, List.flatMap_cons, List.append_assoc, hmod1]
      rw [parseLabelLoop_step_plain f tbl nm name _ (p + 1) _ l1.length
        (l1 ++ (encLabels ls ++ hi :: lo :: rest))
        (by rw [hmod]; exact not_compressed_of_le_63 _ hl63)
        (by rw [hmod]; simp) hshape]
      rw [if_neg (by omega)]
      rw [hmod, List.take_left, hlossy]
      have harith : p + 1 + l.length + 1 = p + l.length + 1 + 1 := by omega
      rw [harith]
      rw [ih l1 (name ++ [l])
        (insertA (p + 1 - 1) l (mapValues (fun v => v ++ 46 :: l) nm)) tbl
        (p + l.length + 1) hi lo sfx rest f hwf1
        (fun x hx => hwf x (by simp [hx])) hhi hcomp hlook
        (by simp only [encLabels, List.flatMap_cons, List.length_append,
              List.length_cons] at hfuel ⊢
            omega)]
      simp only [specMap, Nat.add_sub_cancel, List.append_assoc,
        List.cons_append, List.nil_append, Except.ok.injEq, Prod.mk.injEq,
        encLabels, List.flatMap_cons, List.length_append, List.length_cons]
      refine ⟨trivial, trivial, ?_, by omega⟩
      congr 1
      all_goals first
      | rfl
      | omega


/-- Decoding a plain (pointer-free) encoded name from any state. -/
theorem parse_label_seq_enc (l : Bytes) (ls : List Bytes)
    (tbl : LTable) (p : Nat) (rest : Bytes)
    (hwf : ∀ x ∈ l :: ls, labelWf x) :
    parse_label_seq tbl (encodeName (l :: ls) ++ rest) p
      = .ok (rest, l :: ls, commit (specMap [] p (l :: ls)) tbl,
             p + (encodeName (l :: ls)).length) := by
  have hl := hwf l (by simp)
  have hmod : l.length % 256 = l.length := Nat.mod_eq_of_lt (by
    have := hl.2.1; omega)
  have hshape : encodeName (l :: ls) ++ rest
      = (l.length % 256) :: (l ++ (encLabels ls ++ 0 :: rest)) := by
    simp [encodeName, encLabels, List.flatMap_cons, List.append_assoc]
  rw [hshape]
  simp only [parse_label_seq, be_u8, hmod]
  have hloop := parseLabelLoop_labels ls l [] [] tbl p rest
    ((l ++ (encLabels ls ++ 0 :: rest)).length + 1) hl
    (fun x hx => hwf x (by simp [hx])) (by omega)
  rw [hmod] at hloop
  rw [hloop]
  simp only [List.nil_append, Except.ok.injEq, Prod.mk.injEq]
  refine ⟨trivial, trivial, trivial, ?_⟩
  simp [encodeName, encLabels]
  omega

/-- Decoding a name made of plain labels followed by a compression
pointer whose target is recorded in the table. -/
theorem parse_label_seq_enc_ptr (l : Bytes) (ls : List Bytes)
    (tbl : LTable) (p hi lo : Nat) (sfx : Bytes) (rest : Bytes)
    (hwf : ∀ x ∈ l :: ls, labelWf x)
    (hhi : hi < 256) (hcomp : is_compressed_label hi = true)
    (hlook : lookupA (((hi &&& 63) <<< 8) ||| (lo % 256)) tbl = some sfx) :
    parse_label_seq tbl (encLabels (l :: ls) ++ hi :: lo :: rest) p
      = .ok (rest, (l :: ls) ++ [sfx],
             commit (insertA (p + (encLabels (l :: ls)).length + 1)
               (joinDot ((l :: ls) ++ [sfx])) (specMap [] p (l :: ls))) tbl,
             p + (encLabels (l :: ls)).length + 2) := by
  have hl := hwf l (by simp)
  have hmod : l.length % 256 = l.length := Nat.mod_eq_of_lt (by
    have := hl.2.1; omega)
  have hshape : encLabels (l :: ls) ++ hi :: lo :: rest
      = (l.length % 256) :: (l ++ (encLabels ls ++ hi :: lo :: rest)) := by
    simp [encLabels, List.flatMap_cons, List.append_assoc]
  rw [hshape]
  simp only [parse_label_seq, be_u8, hmod]
  have hloop := parseLabelLoop_labels_ptr ls l [] [] tbl p hi lo sfx rest
    ((l ++ (encLabels ls ++ hi :: lo :: rest)).length + 1) hl
    (fun x hx => hwf x (by simp [hx])) hhi hcomp hlook (by omega)
  rw [hmod] at hloop
  rw [hloop]
  simp only [List.nil_append]

/-- Decoding a name that is a single compression pointer with a
recorded target. -/
theorem parse_label_seq_ptr_only (tbl : LTable) (p hi lo : Nat)
    (sfx : Bytes) (rest : Bytes)
    (hhi : hi < 256) (hcomp : is_compressed_label hi = true)
    (hlook : lookupA (((hi &&& 63) <<< 8) ||| (lo % 256)) tbl = some sfx) :
    parse_label_seq tbl (hi :: lo :: rest) p
      = .ok (rest, [sfx], commit (insertA (p + 1) (joinDot [sfx]) []) tbl,
             p + 2) := by
  have hmod : hi % 256 = hi := Nat.mod_eq_of_lt hhi
  simp only [parse_label_seq, be_u8, hmod]
  rw [show (lo :: rest).length + 1 = (rest.length + 1) + 1 from by simp]
  rw [parseLabelLoop_step_ptr (rest.length + 1) tbl [] [] lo rest (p + 1)
    hi hcomp]
  rw [hlook]
  simp only [List.nil_append]

/-- A compression pointer whose target was never recorded fails with
the `Failure(Tag)` parse error, whatever the rest of the input is. -/
theorem parse_label_seq_dangling (tbl : LTable) (p hi lo : Nat)
    (rest : Bytes)
    (hhi : hi < 256) (hcomp : is_compressed_label hi = true)
    (hlook : lookupA (((hi &&& 63) <<< 8) ||| (lo % 256)) tbl = none) :
    parse_label_seq tbl (hi :: lo :: rest) p = .error (.NFailure .Tag) := by
  have hmod : hi % 256 = hi := Nat.mod_eq_of_lt hhi
  simp only [parse_label_seq, be_u8, hmod]
  rw [show (lo :: rest).length + 1 = (rest.length + 1) + 1 from by simp]
  rw [parseLabelLoop_step_ptr (rest.length + 1) tbl [] [] lo rest (p + 1)
    hi hcomp]
  rw [hlook]


/-! ## Round-trip lemmas for the fixed-width readers -/

theorem u16_parse (v : Nat) (hv : v < 65536) (rest : Bytes) :
    be_u16 ((v >>> 8) % 256 :: v % 256 :: rest) = .ok (rest, v) := by
  simp only [be_u16, be_u8, Bind.bind, Except.bind]
  rw [Nat.shiftRight_eq_div_pow]
  norm_num
  omega

theorem u32_parse (v : Nat) (hv : v < 4294967296) (rest : Bytes) :
    be_u32 ((v >>> 24) % 256 :: (v >>> 16) % 256 :: (v >>> 8) % 256 ::
      v % 256 :: rest) = .ok (rest, v) := by
  simp only [be_u32, be_u8, Bind.bind, Except.bind]
  rw [Nat.shiftRight_eq_div_pow, Nat.shiftRight_eq_div_pow,
    Nat.shiftRight_eq_div_pow]
  norm_num
  omega

/-- Decoding flag byte 2 recovers every field, for all 16 opcodes and
flag combinations. -/
theorem byte2_round (q a t r : Bool) (o : Fin 16) (b : Nat)
    (hb : b = (if q then 128 else 0) ||| ((((o : Nat) <<< 3) % 256) &&& 120)
      ||| (if a then 4 else 0) ||| (if t then 2 else 0) |||
      (if r then 1 else 0)) :
    (b % 256 &&& 128 == 128) = q ∧ ((b % 256 &&& 120) >>> 3) = (o : Nat) ∧
    (b % 256 &&& 4 == 4) = a ∧ (b % 256 &&& 2 == 2) = t ∧
    (b % 256 &&& 1 == 1) = r := by
  subst hb
  revert q a t r o
  decide

/-- Decoding flag byte 3 recovers every field. -/
theorem byte3_round (ra : Bool) (z : Fin 8) (rc : Fin 16) (b : Nat)
    (hb : b = (if ra then 128 else 0) ||| ((((z : Nat) <<< 4) % 256) &&& 112)
      ||| ((rc : Nat) &&& 15)) :
    (b % 256 &&& 128 == 128) = ra ∧ ((b % 256 &&& 112) >>> 4) = (z : Nat) ∧
    (b % 256 &&& 15) = (rc : Nat) := by
  subst hb
  revert ra z rc
  decide

theorem header_parse_to_bytes (h : Header) (rest : Bytes)
    (hid : h.id < 65536) (hopc : h.opcode < 16) (hz : h.z < 8)
    (hrc : h.rcode < 16) (hqd : h.qdcount < 65536) (han : h.ancount < 65536)
    (hns : h.nscount < 65536) (har : h.arcount < 65536) :
    Header.parse (h.to_bytes ++ rest) = .ok (rest, h) := by
  obtain ⟨id, qr, opcode, aa, tc, rd, ra, z, rcode, qd, an, ns, ar⟩ := h
  simp only at hid hopc hz hrc hqd han hns har
  obtain ⟨b2q, b2o, b2a, b2t, b2r⟩ :=
    byte2_round qr aa tc rd ⟨opcode, hopc⟩ _ rfl
  obtain ⟨b3r, b3z, b3c⟩ := byte3_round ra ⟨z, hz⟩ ⟨rcode, hrc⟩ _ rfl
  simp only [Header.to_bytes, List.cons_append, List.nil_append,
    Header.parse, be_u16, be_u8, Bind.bind, Except.bind, Except.ok.injEq,
    Prod.mk.injEq, Header.mk.injEq]
  refine ⟨trivial, ?_, b2q, b2o, b2a, b2t, b2r, b3r, b3z, b3c,
    ?_, ?_, ?_, ?_⟩ <;>
  · rw [Nat.shiftRight_eq_div_pow]
    omega

theorem qtype_from_value_value (t : QType) :
    QType.from_value t.value = some t := by
  cases t <;> rfl

theorem qtype_parse_bytes (t : QType) (rest : Bytes) :
    be_u16 ((t.value >>> 8) % 256 :: t.value % 256 :: rest)
      = .ok (rest, t.value) := by
  cases t <;> rfl

theorem rclass_from_value_value (c : ResourceClass) :
    ResourceClass.from_value c.value = some c := by
  cases c <;> rfl

theorem rclass_parse_bytes (c : ResourceClass) (rest : Bytes) :
    be_u16 ((c.value >>> 8) % 256 :: c.value % 256 :: rest)
      = .ok (rest, c.value) := by
  cases c <;> rfl

theorem takeP_exact (b rest : Bytes) :
    takeP b.length (b ++ rest) = .ok (rest, b) := by
  simp [takeP, List.take_left, List.drop_left]


/-! ## Record and message round trips -/

theorem question_parse_to_bytes (q : Question) (tbl : LTable) (p : Nat)
    (rest : Bytes) (hne : q.name ≠ [])
    (hwf : ∀ l ∈ q.name, labelWf l) :
    Question.parse tbl (q.to_bytes ++ rest) p
      = .ok (rest, q, commit (specMap [] p q.name) tbl,
             p + (encodeName q.name).length + 2 + 2) := by
  rcases q with ⟨tipe, cls, name⟩
  cases name with
  | nil => exact absurd rfl hne
  | cons l ls =>
    simp only [Question.to_bytes, List.append_assoc]
    simp only [Question.parse]
    rw [parse_label_seq_enc l ls tbl p _ (by simpa using hwf)]
    simp only [Bind.bind, Except.bind, List.cons_append, List.nil_append]
    rw [qtype_parse_bytes]
    simp only [Bind.bind, Except.bind]
    rw [qtype_from_value_value]
    simp only []
    rw [rclass_parse_bytes]
    simp only [Bind.bind, Except.bind]
    rw [rclass_from_value_value]

theorem answer_parse_to_bytes (a : Answer) (tbl : LTable) (p : Nat)
    (rest : Bytes) (hne : a.name ≠ [])
    (hwf : ∀ l ∈ a.name, labelWf l) (httl : a.ttl < 4294967296)
    (hrdl : a.rdlength < 65536) (hlen : a.rdlength = a.rdata.length) :
    Answer.parse tbl (a.to_bytes ++ rest) p
      = .ok (rest, a, commit (specMap [] p a.name) tbl,
             p + (encodeName a.name).length + 2 + 2 + 6 + a.rdlength) := by
  rcases a with ⟨name, tipe, cls, ttl, rdlength, rdata⟩
  simp only at httl hrdl hlen
  cases name with
  | nil => exact absurd rfl hne
  | cons l ls =>
    simp only [Answer.to_bytes, List.append_assoc]
    simp only [Answer.parse]
    rw [parse_label_seq_enc l ls tbl p _ (by simpa using hwf)]
    simp only [Bind.bind, Except.bind, List.cons_append, List.nil_append]
    rw [qtype_parse_bytes]
    simp only [Bind.bind, Except.bind]
    rw [qtype_from_value_value]
    simp only []
    rw [rclass_parse_bytes]
    simp only [Bind.bind, Except.bind]
    rw [rclass_from_value_value]
    simp only []
    rw [u32_parse ttl httl]
    simp only [Bind.bind, Except.bind]
    rw [u16_parse rdlength hrdl]
    simp only [Bind.bind, Except.bind]
    rw [hlen, takeP_exact]

theorem parseQuestions_to_bytes (qs : List Question) :
    ∀ (tbl : LTable) (p : Nat) (rest : Bytes),
      (∀ q ∈ qs, q.name ≠ [] ∧ ∀ l ∈ q.name, labelWf l) →
      ∃ tbl2 p2, parseQuestions qs.length tbl
          (qs.flatMap Question.to_bytes ++ rest) p
        = .ok (rest, qs, tbl2, p2) := by
  induction qs with
  | nil =>
    intro tbl p rest _
    exact ⟨tbl, p, by simp [parseQuestions]⟩
  | cons q qs ih =>
    intro tbl p rest hwf
    simp only [List.flatMap_cons, List.append_assoc, List.length_cons,
      parseQuestions]
    rw [question_parse_to_bytes q tbl p
      (qs.flatMap Question.to_bytes ++ rest)
      (hwf q (by simp)).1 (hwf q (by simp)).2]
    simp only [Bind.bind, Except.bind]
    obtain ⟨tbl3, p3, hqs⟩ := ih (commit (specMap [] p q.name) tbl)
      (p + (encodeName q.name).length + 2 + 2) rest
      (fun x hx => hwf x (by simp [hx]))
    rw [hqs]
    exact ⟨tbl3, p3, rfl⟩

theorem parseAnswers_to_bytes (as_ : List Answer) :
    ∀ (tbl : LTable) (p : Nat) (rest : Bytes),
      (∀ a ∈ as_, a.name ≠ [] ∧ (∀ l ∈ a.name, labelWf l) ∧
        a.ttl < 4294967296 ∧ a.rdlength < 65536 ∧
        a.rdlength = a.rdata.length) →
      ∃ tbl2 p2, parseAnswers as_.length tbl
          (as_.flatMap Answer.to_bytes ++ rest) p
        = .ok (rest, as_, tbl2, p2) := by
  induction as_ with
  | nil =>
    intro tbl p rest _
    exact ⟨tbl, p, by simp [parseAnswers]⟩
  | cons a as_ ih =>
    intro tbl p rest hwf
    simp only [List.flatMap_cons, List.append_assoc, List.length_cons,
      parseAnswers]
    obtain ⟨h1, h2, h3, h4, h5⟩ := hwf a (by simp)
    rw [answer_parse_to_bytes a tbl p
      (as_.flatMap Answer.to_bytes ++ rest) h1 h2 h3 h4 h5]
    simp only [Bind.bind, Except.bind]
    obtain ⟨tbl3, p3, has⟩ := ih (commit (specMap [] p a.name) tbl)
      (p + (encodeName a.name).length + 2 + 2 + 6 + a.rdlength) rest
      (fun x hx => hwf x (by simp [hx]))
    rw [has]
    exact ⟨tbl3, p3, rfl⟩

/-- The syntactic-validity conditions of the round-trip claim, together
with the width invariants every Rust `Message` enjoys by type
(`u16` ids and counts, `u32` ttl). -/
def Message.valid (m : Message) : Prop :=
  m.header.id < 65536 ∧ m.header.opcode < 16 ∧ m.header.z < 8 ∧
  m.header.rcode < 16 ∧ m.header.nscount < 65536 ∧
  m.header.arcount < 65536 ∧
  m.header.qdcount = m.questions.length ∧
  m.header.ancount = m.answers.length ∧
  m.questions.length < 65536 ∧ m.answers.length < 65536 ∧
  (∀ q ∈ m.questions, ∀ l ∈ q.name, labelWf l) ∧
  (∀ a ∈ m.answers, (∀ l ∈ a.name, labelWf l) ∧ a.ttl < 4294967296 ∧
    a.rdlength < 65536 ∧ a.rdlength = a.rdata.length)

instance (m : Message) : Decidable (Message.valid m) := by
  unfold Message.valid; infer_instance

/-- Full decode-of-encode round trip, additionally assuming every name
is nonempty. -/
theorem message_parse_to_bytes (m : Message) (hv : Message.valid m)
    (hq : ∀ q ∈ m.questions, q.name ≠ [])
    (ha : ∀ a ∈ m.answers, a.name ≠ []) :
    Message.parse m.to_bytes = .ok ([], m) := by
  obtain ⟨hid, hopc, hz, hrc, hns, har, hqd, han, hql, hal, hqwf, hawf⟩ := hv
  rcases m with ⟨header, questions, answers⟩
  simp only at hid hopc hz hrc hns har hqd han hql hal hqwf hawf hq ha
  simp only [Message.to_bytes, Message.parse]
  rw [header_parse_to_bytes header _ hid hopc hz hrc
    (by omega) (by omega) hns har]
  simp only [Bind.bind, Except.bind]
  rw [hqd]
  obtain ⟨tbl2, p2, hqs⟩ := parseQuestions_to_bytes questions []
    12 (answers.flatMap Answer.to_bytes)
    (fun x hx => ⟨hq x hx, hqwf x hx⟩)
  rw [hqs]
  simp only [Bind.bind, Except.bind]
  rw [han]
  obtain ⟨tbl3, p3, has⟩ := parseAnswers_to_bytes answers tbl2 p2 []
    (fun x hx => ⟨ha x hx, hawf x hx⟩)
  rw [show answers.flatMap Answer.to_bytes
      = answers.flatMap Answer.to_bytes ++ [] from (List.append_nil _).symm,
    has]


/-! ## Suffix-irrelevance: a successful parse only consumes a prefix,
so appending bytes to the input appends them to the leftover. -/

theorem be_u8_append (b ex r : Bytes) (v : Nat)
    (h : be_u8 b = .ok (r, v)) : be_u8 (b ++ ex) = .ok (r ++ ex, v) := by
  cases b with
  | nil => simp [be_u8] at h
  | cons x xs =>
    simp only [be_u8, Except.ok.injEq, Prod.mk.injEq] at h
    obtain ⟨rfl, rfl⟩ := h
    rfl

theorem be_u16_append (b ex r : Bytes) (v : Nat)
    (h : be_u16 b = .ok (r, v)) : be_u16 (b ++ ex) = .ok (r ++ ex, v) := by
  simp only [be_u16, Bind.bind] at h ⊢
  cases hb0 : be_u8 b with
  | error e => rw [hb0] at h; simp [Except.bind] at h
  | ok x =>
    obtain ⟨r0, v0⟩ := x
    rw [hb0] at h
    rw [be_u8_append b ex r0 v0 hb0]
    simp only [Except.bind] at h ⊢
    cases hb1 : be_u8 r0 with
    | error e => rw [hb1] at h; simp at h
    | ok y =>
      obtain ⟨r1, v1⟩ := y
      rw [hb1] at h
      rw [be_u8_append r0 ex r1 v1 hb1]
      simp only [Except.ok.injEq, Prod.mk.injEq] at h
      obtain ⟨rfl, rfl⟩ := h
      rfl

theorem be_u32_append (b ex r : Bytes) (v : Nat)
    (h : be_u32 b = .ok (r, v)) : be_u32 (b ++ ex) = .ok (r ++ ex, v) := by
  simp only [be_u32, Bind.bind] at h ⊢
  cases hb0 : be_u8 b with
  | error e => rw [hb0] at h; simp [Except.bind] at h
  | ok x =>
    obtain ⟨r0, v0⟩ := x
    rw [hb0] at h
    rw [be_u8_append b ex r0 v0 hb0]
    simp only [Except.bind] at h ⊢
    cases hb1 : be_u8 r0 with
    | error e => rw [hb1] at h; simp at h
    | ok y =>
      obtain ⟨r1, v1⟩ := y
      rw [hb1] at h
      rw [be_u8_append r0 ex r1 v1 hb1]
      simp only [Except.bind] at h ⊢
      cases hb2 : be_u8 r1 with
      | error e => rw [hb2] at h; simp at h
      | ok z =>
        obtain ⟨r2, v2⟩ := z
        rw [hb2] at h
        rw [be_u8_append r1 ex r2 v2 hb2]
        simp only [Except.bind] at h ⊢
        cases hb3 : be_u8 r2 with
        | error e => rw [hb3] at h; simp at h
        | ok w =>
          obtain ⟨r3, v3⟩ := w
          rw [hb3] at h
          rw [be_u8_append r2 ex r3 v3 hb3]
          simp only [Except.ok.injEq, Prod.mk.injEq] at h
          obtain ⟨rfl, rfl⟩ := h
          rfl

theorem takeP_append (n : Nat) (b ex r taken : Bytes)
    (h : takeP n b = .ok (r, taken)) :
    takeP n (b ++ ex) = .ok (r ++ ex, taken) := by
  simp only [takeP] at h ⊢
  by_cases hle : n ≤ b.length
  · rw [if_pos hle] at h
    rw [if_pos (by simp; omega)]
    simp only [Except.ok.injEq, Prod.mk.injEq] at h
    obtain ⟨rfl, rfl⟩ := h
    rw [List.drop_append_of_le_length hle, List.take_append_of_le_length hle]
  · rw [if_neg hle] at h
    simp at h

theorem parseLabelLoop_append (fuel : Nat) :
    ∀ (fuel2 : Nat) (tbl nm : LTable) (name : List Bytes) (b ex r : Bytes)
      (off len : Nat) (nme : List Bytes) (nm2 : LTable) (off2 : Nat),
      parseLabelLoop fuel tbl nm name b off len = .ok (r, nme, nm2, off2) →
      (b ++ ex).length < fuel2 →
      parseLabelLoop fuel2 tbl nm name (b ++ ex) off len
        = .ok (r ++ ex, nme, nm2, off2) := by
  induction fuel with
  | zero =>
    intro fuel2 tbl nm name b ex r off len nme nm2 off2 h _
    simp [parseLabelLoop] at h
  | succ f ih =>
    intro fuel2 tbl nm name b ex r off len nme nm2 off2 h hlen
    cases fuel2 with
    | zero => simp at hlen
    | succ f2 =>
      by_cases hcomp : is_compressed_label len
      · cases b with
        | nil => simp [parseLabelLoop, hcomp] at h
        | cons o rest =>
          rw [parseLabelLoop_step_ptr f tbl nm name o rest off len hcomp]
            at h
          rw [show (o :: rest) ++ ex = o :: (rest ++ ex) from rfl]
          rw [parseLabelLoop_step_ptr f2 tbl nm name o (rest ++ ex) off len
            hcomp]
          cases hl : lookupA (((len &&& 63) <<< 8) ||| (o % 256)) tbl with
          | none => rw [hl] at h; simp at h
          | some label =>
            rw [hl] at h
            simp only [Except.ok.injEq, Prod.mk.injEq] at h
            obtain ⟨rfl, rfl, rfl, rfl⟩ := h
            rfl
      · have hcompf : is_compressed_label len = false := by
          simpa using hcomp
        by_cases hle : len ≤ b.length
        · cases hdrop : b.drop len with
          | nil =>
            simp only [parseLabelLoop, hcompf, Bool.false_eq_true, if_false,
              if_pos hle, hdrop] at h
            simp at h
          | cons l2 rest2 =>
            rw [parseLabelLoop_step_plain f tbl nm name b off len l2 rest2
              hcompf hle hdrop] at h
            have hle2 : len ≤ (b ++ ex).length := by simp; omega
            have hdrop2 : (b ++ ex).drop len = l2 :: (rest2 ++ ex) := by
              rw [List.drop_append_of_le_length hle, hdrop]; rfl
            have htake2 : (b ++ ex).take len = b.take len :=
              List.take_append_of_le_length hle
            rw [parseLabelLoop_step_plain f2 tbl nm name (b ++ ex) off len
              l2 (rest2 ++ ex) hcompf hle2 hdrop2, htake2]
            by_cases hz : l2 % 256 = 0
            · rw [if_pos hz] at h ⊢
              simp only [Except.ok.injEq, Prod.mk.injEq] at h
              obtain ⟨rfl, rfl, rfl, rfl⟩ := h
              rfl
            · rw [if_neg hz] at h ⊢
              have hlen2 : (rest2 ++ ex).length < f2 := by
                have hd := congrArg List.length hdrop
                simp only [List.length_drop, List.length_cons] at hd
                simp only [List.length_append] at hlen ⊢
                omega
              exact ih f2 tbl _ _ rest2 ex r (off + len + 1) (l2 % 256)
                nme nm2 off2 h hlen2
        · simp only [parseLabelLoop, hcompf, Bool.false_eq_true, if_false,
            if_neg hle] at h
          simp at h

theorem parse_label_seq_append (tbl : LTable) (b ex r : Bytes)
    (nme : List Bytes) (nm2 : LTable) (p off2 : Nat)
    (h : parse_label_seq tbl b p = .ok (r, nme, nm2, off2)) :
    parse_label_seq tbl (b ++ ex) p = .ok (r ++ ex, nme, nm2, off2) := by
  cases b with
  | nil => simp [parse_label_seq, be_u8] at h
  | cons x xs =>
    simp only [parse_label_seq, be_u8, List.cons_append] at h ⊢
    cases hl : parseLabelLoop (xs.length + 1) tbl [] [] xs (p + 1)
        (x % 256) with
    | error e => rw [hl] at h; simp at h
    | ok res =>
      obtain ⟨b2, nme2, nmm, o2⟩ := res
      rw [hl] at h
      simp only [Except.ok.injEq, Prod.mk.injEq] at h
      obtain ⟨rfl, rfl, rfl, rfl⟩ := h
      rw [parseLabelLoop_append (xs.length + 1) ((xs ++ ex).length + 1) tbl
        [] [] xs ex b2 (p + 1) (x % 256) nme2 nmm o2 hl (by simp)]


theorem header_parse_append (b ex r : Bytes) (hd : Header)
    (h : Header.parse b = .ok (r, hd)) :
    Header.parse (b ++ ex) = .ok (r ++ ex, hd) := by
  simp only [Header.parse, Bind.bind] at h ⊢
  cases h0 : be_u16 b with
  | error e => rw [h0] at h; simp [Except.bind] at h
  | ok x =>
    obtain ⟨r0, v0⟩ := x
    rw [h0] at h
    rw [be_u16_append b ex r0 v0 h0]
    simp only [Except.bind] at h ⊢
    cases h1 : be_u8 r0 with
    | error e => rw [h1] at h; simp at h
    | ok x =>
      obtain ⟨r1, v1⟩ := x
      rw [h1] at h
      rw [be_u8_append r0 ex r1 v1 h1]
      simp only [Except.bind] at h ⊢
      cases h2 : be_u8 r1 with
      | error e => rw [h2] at h; simp at h
      | ok x =>
        obtain ⟨r2, v2⟩ := x
        rw [h2] at h
        rw [be_u8_append r1 ex r2 v2 h2]
        simp only [Except.bind] at h ⊢
        cases h3 : be_u16 r2 with
        | error e => rw [h3] at h; simp at h
        | ok x =>
          obtain ⟨r3, v3⟩ := x
          rw [h3] at h
          rw [be_u16_append r2 ex r3 v3 h3]
          simp only [Except.bind] at h ⊢
          cases h4 : be_u16 r3 with
          | error e => rw [h4] at h; simp at h
          | ok x =>
            obtain ⟨r4, v4⟩ := x
            rw [h4] at h
            rw [be_u16_append r3 ex r4 v4 h4]
            simp only [Except.bind] at h ⊢
            cases h5 : be_u16 r4 with
            | error e => rw [h5] at h; simp at h
            | ok x =>
              obtain ⟨r5, v5⟩ := x
              rw [h5] at h
              rw [be_u16_append r4 ex r5 v5 h5]
              simp only [Except.bind] at h ⊢
              cases h6 : be_u16 r5 with
              | error e => rw [h6] at h; simp at h
              | ok x =>
                obtain ⟨r6, v6⟩ := x
                rw [h6] at h
                rw [be_u16_append r5 ex r6 v6 h6]
                simp only [Except.ok.injEq, Prod.mk.injEq] at h
                obtain ⟨rfl, rfl⟩ := h
                rfl

theorem question_parse_append (tbl : LTable) (b ex r : Bytes)
    (q : Question) (tbl2 : LTable) (p off2 : Nat)
    (h : Question.parse tbl b p = .ok (r, q, tbl2, off2)) :
    Question.parse tbl (b ++ ex) p = .ok (r ++ ex, q, tbl2, off2) := by
  simp only [Question.parse, Bind.bind] at h ⊢
  cases h0 : parse_label_seq tbl b p with
  | error e => rw [h0] at h; simp [Except.bind] at h
  | ok x =>
    obtain ⟨r0, nme, tblx, offx⟩ := x
    rw [h0] at h
    rw [parse_label_seq_append tbl b ex r0 nme tblx p offx h0]
    simp only [Except.bind] at h ⊢
    cases h1 : be_u16 r0 with
    | error e => rw [h1] at h; simp at h
    | ok x =>
      obtain ⟨r1, tv⟩ := x
      rw [h1] at h
      rw [be_u16_append r0 ex r1 tv h1]
      simp only [] at h ⊢
      cases h2 : QType.from_value tv with
      | none => rw [h2] at h; simp at h
      | some tipe =>
        simp only [Except.bind] at h ⊢
        cases h3 : be_u16 r1 with
        | error e => rw [h3] at h; simp [h2] at h
        | ok x =>
          obtain ⟨r2, cv⟩ := x
          rw [h3] at h
          rw [be_u16_append r1 ex r2 cv h3]
          simp only [] at h ⊢
          cases h4 : ResourceClass.from_value cv with
          | none => rw [h4] at h; simp [h2] at h
          | some cls =>
            simp only [h2, h4, Except.ok.injEq, Prod.mk.injEq] at h
            obtain ⟨rfl, rfl, rfl, rfl⟩ := h
            rfl

theorem answer_parse_append (tbl : LTable) (b ex r : Bytes)
    (a : Answer) (tbl2 : LTable) (p off2 : Nat)
    (h : Answer.parse tbl b p = .ok (r, a, tbl2, off2)) :
    Answer.parse tbl (b ++ ex) p = .ok (r ++ ex, a, tbl2, off2) := by
  simp only [Answer.parse, Bind.bind] at h ⊢
  cases h0 : parse_label_seq tbl b p with
  | error e => rw [h0] at h; simp [Except.bind] at h
  | ok x =>
    obtain ⟨r0, nme, tblx, offx⟩ := x
    rw [h0] at h
    rw [parse_label_seq_append tbl b ex r0 nme tblx p offx h0]
    simp only [Except.bind] at h ⊢
    cases h1 : be_u16 r0 with
    | error e => rw [h1] at h; simp at h
    | ok x =>
      obtain ⟨r1, tv⟩ := x
      rw [h1] at h
      rw [be_u16_append r0 ex r1 tv h1]
      simp only [] at h ⊢
      cases h2 : QType.from_value tv with
      | none => rw [h2] at h; simp at h
      | some tipe =>
        simp only [Except.bind] at h ⊢
        cases h3 : be_u16 r1 with
        | error e => rw [h3] at h; simp [h2] at h
        | ok x =>
          obtain ⟨r2, cv⟩ := x
          rw [h3] at h
          rw [be_u16_append r1 ex r2 cv h3]
          simp only [] at h ⊢
          cases h4 : ResourceClass.from_value cv with
          | none => rw [h4] at h; simp [h2] at h
          | some cls =>
            simp only [h2, h4, Except.bind] at h ⊢
            cases h5 : be_u32 r2 with
            | error e => rw [h5] at h; simp [h2, h4] at h
            | ok x =>
              obtain ⟨r3, ttl⟩ := x
              rw [h5] at h
              rw [be_u32_append r2 ex r3 ttl h5]
              simp only [Except.bind] at h ⊢
              cases h6 : be_u16 r3 with
              | error e => rw [h6] at h; simp [h2, h4] at h
              | ok x =>
                obtain ⟨r4, rdl⟩ := x
                rw [h6] at h
                rw [be_u16_append r3 ex r4 rdl h6]
                simp only [Except.bind] at h ⊢
                cases h7 : takeP rdl r4 with
                | error e => rw [h7] at h; simp [h2, h4] at h
                | ok x =>
                  obtain ⟨r5, rdata⟩ := x
                  rw [h7] at h
                  rw [takeP_append rdl r4 ex r5 rdata h7]
                  simp only [h2, h4, Except.ok.injEq, Prod.mk.injEq] at h
                  obtain ⟨rfl, rfl, rfl, rfl⟩ := h
                  rfl

theorem parseQuestions_append (n : Nat) :
    ∀ (tbl : LTable) (b ex r : Bytes) (qs : List Question) (tbl2 : LTable)
      (p off2 : Nat),
      parseQuestions n tbl b p = .ok (r, qs, tbl2, off2) →
      parseQuestions n tbl (b ++ ex) p = .ok (r ++ ex, qs, tbl2, off2) := by
  induction n with
  | zero =>
    intro tbl b ex r qs tbl2 p off2 h
    simp only [parseQuestions, Except.ok.injEq, Prod.mk.injEq] at h
    obtain ⟨rfl, rfl, rfl, rfl⟩ := h
    rfl
  | succ k ih =>
    intro tbl b ex r qs tbl2 p off2 h
    simp only [parseQuestions, Bind.bind] at h ⊢
    cases h0 : Question.parse tbl b p with
    | error e => rw [h0] at h; simp [Except.bind] at h
    | ok x =>
      obtain ⟨r0, q, tblx, offx⟩ := x
      rw [h0] at h
      rw [question_parse_append tbl b ex r0 q tblx p offx h0]
      simp only [Except.bind] at h ⊢
      cases h1 : parseQuestions k tblx r0 offx with
      | error e => rw [h1] at h; simp at h
      | ok x =>
        obtain ⟨r1, qs1, tbly, offy⟩ := x
        rw [h1] at h
        rw [ih tblx r0 ex r1 qs1 tbly offx offy h1]
        simp only [Except.ok.injEq, Prod.mk.injEq] at h
        obtain ⟨rfl, rfl, rfl, rfl⟩ := h
        rfl

theorem parseAnswers_append (n : Nat) :
    ∀ (tbl : LTable) (b ex r : Bytes) (as_ : List Answer) (tbl2 : LTable)
      (p off2 : Nat),
      parseAnswers n tbl b p = .ok (r, as_, tbl2, off2) →
      parseAnswers n tbl (b ++ ex) p = .ok (r ++ ex, as_, tbl2, off2) := by
  induction n with
  | zero =>
    intro tbl b ex r as_ tbl2 p off2 h
    simp only [parseAnswers, Except.ok.injEq, Prod.mk.injEq] at h
    obtain ⟨rfl, rfl, rfl, rfl⟩ := h
    rfl
  | succ k ih =>
    intro tbl b ex r as_ tbl2 p off2 h
    simp only [parseAnswers, Bind.bind] at h ⊢
    cases h0 : Answer.parse tbl b p with
    | error e => rw [h0] at h; simp [Except.bind] at h
    | ok x =>
      obtain ⟨r0, a, tblx, offx⟩ := x
      rw [h0] at h
      rw [answer_parse_append tbl b ex r0 a tblx p offx h0]
      simp only [Except.bind] at h ⊢
      cases h1 : parseAnswers k tblx r0 offx with
      | error e => rw [h1] at h; simp at h
      | ok x =>
        obtain ⟨r1, as1, tbly, offy⟩ := x
        rw [h1] at h
        rw [ih tblx r0 ex r1 as1 tbly offx offy h1]
        simp only [Except.ok.injEq, Prod.mk.injEq] at h
        obtain ⟨rfl, rfl, rfl, rfl⟩ := h
        rfl

theorem parseQuestions_length (n : Nat) :
    ∀ (tbl : LTable) (b r : Bytes) (qs : List Question) (tbl2 : LTable)
      (p off2 : Nat),
      parseQuestions n tbl b p = .ok (r, qs, tbl2, off2) →
      qs.length = n := by
  induction n with
  | zero =>
    intro tbl b r qs tbl2 p off2 h
    simp only [parseQuestions, Except.ok.injEq, Prod.mk.injEq] at h
    obtain ⟨-, rfl, -, -⟩ := h
    rfl
  | succ k ih =>
    intro tbl b r qs tbl2 p off2 h
    simp only [parseQuestions, Bind.bind] at h
    cases h0 : Question.parse tbl b p with
    | error e => rw [h0] at h; simp [Except.bind] at h
    | ok x =>
      obtain ⟨r0, q, tblx, offx⟩ := x
      rw [h0] at h
      simp only [Except.bind] at h
      cases h1 : parseQuestions k tblx r0 offx with
      | error e => rw [h1] at h; simp at h
      | ok x =>
        obtain ⟨r1, qs1, tbly, offy⟩ := x
        rw [h1] at h
        simp only [Except.ok.injEq, Prod.mk.injEq] at h
        obtain ⟨-, rfl, -, -⟩ := h
        simp [ih tblx r0 r1 qs1 tbly offx offy h1]

theorem parseAnswers_length (n : Nat) :
    ∀ (tbl : LTable) (b r : Bytes) (as_ : List Answer) (tbl2 : LTable)
      (p off2 : Nat),
      parseAnswers n tbl b p = .ok (r, as_, tbl2, off2) →
      as_.length = n := by
  induction n with
  | zero =>
    intro tbl b r as_ tbl2 p off2 h
    simp only [parseAnswers, Except.ok.injEq, Prod.mk.injEq] at h
    obtain ⟨-, rfl, -, -⟩ := h
    rfl
  | succ k ih =>
    intro tbl b r as_ tbl2 p off2 h
    simp only [parseAnswers, Bind.bind] at h
    cases h0 : Answer.parse tbl b p with
    | error e => rw [h0] at h; simp [Except.bind] at h
    | ok x =>
      obtain ⟨r0, a, tblx, offx⟩ := x
      rw [h0] at h
      simp only [Except.bind] at h
      cases h1 : parseAnswers k tblx r0 offx with
      | error e => rw [h1] at h; simp at h
      | ok x =>
        obtain ⟨r1, as1, tbly, offy⟩ := x
        rw [h1] at h
        simp only [Except.ok.injEq, Prod.mk.injEq] at h
        obtain ⟨-, rfl, -, -⟩ := h
        simp [ih tblx r0 r1 as1 tbly offx offy h1]

theorem message_parse_append (b ex r : Bytes) (m : Message)
    (h : Message.parse b = .ok (r, m)) :
    Message.parse (b ++ ex) = .ok (r ++ ex, m) := by
  simp only [Message.parse, Bind.bind] at h ⊢
  cases h0 : Header.parse b with
  | error e => rw [h0] at h; simp [Except.bind] at h
  | ok x =>
    obtain ⟨r0, hd⟩ := x
    rw [h0] at h
    rw [header_parse_append b ex r0 hd h0]
    simp only [Except.bind] at h ⊢
    cases h1 : parseQuestions hd.qdcount [] r0 12 with
    | error e => rw [h1] at h; simp at h
    | ok x =>
      obtain ⟨r1, qs, tblx, offx⟩ := x
      rw [h1] at h
      rw [parseQuestions_append hd.qdcount [] r0 ex r1 qs tblx 12 offx h1]
      simp only [Except.bind] at h ⊢
      cases h2 : parseAnswers hd.ancount tblx r1 offx with
      | error e => rw [h2] at h; simp at h
      | ok x =>
        obtain ⟨r2, as_, tbly, offy⟩ := x
        rw [h2] at h
        rw [parseAnswers_append hd.ancount tblx r1 ex r2 as_ tbly offx offy
          h2]
        simp only [Except.ok.injEq, Prod.mk.injEq] at h
        obtain ⟨rfl, rfl⟩ := h
        rfl


/-! # Claim theorems -/

/-- An all-zero header to build concrete inputs from. -/
def zeroHeader : Header :=
  { id := 0, qr := false, opcode := 0, aa := false, tc := false, rd := false,
    ra := false, z := 0, rcode := 0, qdcount := 0, ancount := 0,
    nscount := 0, arcount := 0 }

/-! ## C3 -/

def c3state : DnsServer :=
  { resolver := some 0, source_map := [], orig_messages := [] }

def c3msg : Message :=
  { header := { zeroHeader with qr := true }, questions := [], answers := [] }

/-- C3: the claim is right and the code is wrong.  A response (`qr = 1`)
whose transaction id matches no correlation entry is supposed to be
dropped with processing returning normally; instead
`self.source_map.get(&m.header.id).unwrap()` in `DnsServer::process`
unwraps `None` and panics (modelled as `none`). -/
theorem c3_unknown_id_panics :
    DnsServer.process c3state c3msg 9 = none := by
  rfl

/-! ## C4 -/

def c4msg : Message :=
  { header := { zeroHeader with qdcount := 5, ancount := 9 },
    questions := [], answers := [] }

/-- C4 counterexample: a message whose stored `qdcount`/`ancount` fields
(5 and 9) disagree with its empty sections.  The emitted header bytes
carry 5 and 9 — the stored fields — not the section lengths 0, so the
encoder does not enforce the count invariant. -/
theorem c4_counterexample :
    Message.to_bytes c4msg = [0, 0, 0, 0, 0, 5, 0, 9, 0, 0, 0, 0] ∧
    c4msg.questions.length = 0 ∧ c4msg.answers.length = 0 := by
  exact ⟨rfl, rfl, rfl⟩

/-- C4 (amended): the count bytes of the emitted header (bytes 4–11 of
`Message::to_bytes`) are the big-endian encodings of the *stored*
`header.qdcount/ancount/nscount/arcount` fields, whatever the actual
section lengths are; they equal the section lengths only when the
stored fields do. -/
theorem c4_counts_from_header (m : Message) :
    (Message.to_bytes m).take 12 = Header.to_bytes m.header ∧
    Header.to_bytes m.header
      = [ (m.header.id >>> 8) % 256, m.header.id % 256,
          (if m.header.qr then 128 else 0) |||
            (((m.header.opcode <<< 3) % 256) &&& 120) |||
            (if m.header.aa then 4 else 0) |||
            (if m.header.tc then 2 else 0) |||
            (if m.header.rd then 1 else 0),
          (if m.header.ra then 128 else 0) |||
            (((m.header.z <<< 4) % 256) &&& 112) |||
            (m.header.rcode &&& 15),
          (m.header.qdcount >>> 8) % 256, m.header.qdcount % 256,
          (m.header.ancount >>> 8) % 256, m.header.ancount % 256,
          (m.header.nscount >>> 8) % 256, m.header.nscount % 256,
          (m.header.arcount >>> 8) % 256, m.header.arcount % 256 ] := by
  constructor
  · rw [Message.to_bytes,
      show (12 : Nat) = (Header.to_bytes m.header).length from rfl,
      List.take_left]
  · rfl

/-! ## C5 -/

def c5ans : Answer :=
  { name := [], tipe := .A, cls := .IN, ttl := 0, rdlength := 7,
    rdata := [1, 2] }

/-- C5 counterexample: an answer whose stored `rdlength` field (7)
differs from `rdata.len()` (2).  `Answer::to_bytes` emits the stored
field — bytes 9–10 below are `0, 7` — not the recomputed length. -/
theorem c5_counterexample :
    Answer.to_bytes c5ans = [0, 0, 1, 0, 1, 0, 0, 0, 0, 0, 7, 1, 2] ∧
    c5ans.rdata.length = 2 := by
  exact ⟨rfl, rfl⟩

/-- C5 (amended): the two rdata-length bytes emitted by
`Answer::to_bytes` are the big-endian encoding of the *stored*
`rdlength` field (followed by the raw `rdata`); they equal
`rdata.len()` only when the stored field does. -/
theorem c5_rdlength_from_field (a : Answer) :
    (Answer.to_bytes a).drop ((encodeName a.name).length + 8)
      = (a.rdlength >>> 8) % 256 :: a.rdlength % 256 :: a.rdata := by
  rw [Answer.to_bytes,
    show (encodeName a.name).length + 8
      = (encodeName a.name ++
          [ (a.tipe.value >>> 8) % 256, a.tipe.value % 256,
            (a.cls.value >>> 8) % 256, a.cls.value % 256,
            (a.ttl >>> 24) % 256, (a.ttl >>> 16) % 256,
            (a.ttl >>> 8) % 256, a.ttl % 256 ]).length
      from by simp,
    List.drop_left]

/-! ## C8 -/

def c8state : DnsServer :=
  { resolver := some 7, source_map := [], orig_messages := [] }

def c8msg : Message :=
  { header := { zeroHeader with id := 1 }, questions := [],
    answers := [{ name := [], tipe := .A, cls := .IN, ttl := 60,
                  rdlength := 4, rdata := [127, 0, 0, 1] }] }

/-- C8 counterexample: a zero-question client query with an upstream
configured.  The code sends nothing (the sent list is empty, so no
immediate reply with the emptied answer section) and it creates a
lingering correlation entry with count 0 plus a stored copy of the
query. -/
theorem c8_counterexample :
    DnsServer.process c8state c8msg 5
      = some ({ resolver := some 7, source_map := [(1, (0, 5))],
                orig_messages :=
                  [(1, { header := { zeroHeader with id := 1 },
                         questions := [], answers := [] })] }, []) := by
  rfl

/-- C8 (amended): with an upstream configured, a client query
(`qr = 0`) with no questions sends nothing at all; the server records a
correlation entry with outstanding count 0 and stores the query with
its answers cleared, and this entry lingers (no reply is produced by
this call). -/
theorem c8_zero_questions (s : DnsServer) (m : Message) (src : Addr)
    (r : Addr) (hres : s.resolver = some r) (hqr : m.header.qr = false)
    (hq : m.questions = []) :
    DnsServer.process s m src
      = some ({ s with
          source_map := insertA m.header.id (0, src) s.source_map,
          orig_messages :=
            insertA m.header.id { m with answers := [] } s.orig_messages },
        []) := by
  rcases s with ⟨res, sm, om⟩
  simp only at hres
  simp [DnsServer.process, hres, hqr, hq]

/-- C8 witness: the amended statement applied to the concrete
zero-question query. -/
theorem c8_zero_questions_witness :
    DnsServer.process c8state c8msg 5
      = some ({ c8state with
          source_map := insertA c8msg.header.id (0, 5) c8state.source_map,
          orig_messages := insertA c8msg.header.id
            { c8msg with answers := [] } c8state.orig_messages }, []) :=
  c8_zero_questions c8state c8msg 5 7 rfl rfl rfl

/-! ## C10 -/

/-- C10: with no upstream resolver, `DnsServer::process` replies with
`update_message m`, whose question section is not the client's
verbatim: every question's type is overwritten to `A` and its class to
`IN`, and only the name survives. -/
theorem c10_stub_overwrites_questions (s : DnsServer) (m : Message)
    (src : Addr) (hres : s.resolver = none) :
    DnsServer.process s m src
      = some (s, [((DnsServer.update_message m).to_bytes, src)]) ∧
    (DnsServer.update_message m).questions
      = m.questions.map (fun q =>
          { tipe := QType.A, cls := ResourceClass.IN, name := q.name }) := by
  constructor
  · rcases s with ⟨res, sm, om⟩
    simp only at hres
    simp [DnsServer.process, hres]
  · rfl

def c10msg : Message :=
  { header := zeroHeader,
    questions := [{ tipe := .MX, cls := .CH, name := [[97]] }],
    answers := [] }

def c10state : DnsServer :=
  { resolver := none, source_map := [], orig_messages := [] }

/-- C10 witness: the stub path on a concrete `MX`/`CH` question. -/
theorem c10_stub_overwrites_questions_witness :
    DnsServer.process c10state c10msg 3
      = some (c10state,
          [((DnsServer.update_message c10msg).to_bytes, 3)]) ∧
    (DnsServer.update_message c10msg).questions
      = c10msg.questions.map (fun q =>
          { tipe := QType.A, cls := ResourceClass.IN, name := q.name }) :=
  c10_stub_overwrites_questions c10state c10msg 3 rfl


/-! ## C1 -/

def c1badMsg : Message :=
  { header := { zeroHeader with qdcount := 1 },
    questions := [{ tipe := .A, cls := .IN, name := [] }], answers := [] }

/-- C1 counterexample: a message satisfying every stated validity
condition (counts match, every label — vacuously — is 1–63 bytes and
UTF-8 clean, bit fields in range) whose single question has an *empty*
name.  Encoding writes just the terminator octet; decoding then reads
an empty label, consumes the type's high byte as the next length octet,
and misparses the type as 256, failing with `Failure(Tag)` instead of
returning the message. -/
theorem c1_counterexample :
    Message.valid c1badMsg ∧
    Message.parse (Message.to_bytes c1badMsg)
      = .error (.NFailure .Tag) := by
  exact ⟨by decide, rfl⟩

/-- C1 (amended): the round trip holds once every name is additionally
required to be a *nonempty* sequence of labels: decoding the bytes of
such a valid message yields the identical message with no input left
over. -/
theorem c1_round_trip (m : Message) (hv : Message.valid m)
    (hq : ∀ q ∈ m.questions, q.name ≠ [])
    (ha : ∀ a ∈ m.answers, a.name ≠ []) :
    Message.parse (Message.to_bytes m) = .ok ([], m) :=
  message_parse_to_bytes m hv hq ha

def c1okMsg : Message :=
  { header := { id := 4660, qr := true, opcode := 3, aa := true,
                tc := false, rd := true, ra := true, z := 5, rcode := 2,
                qdcount := 1, ancount := 1, nscount := 7, arcount := 9 },
    questions := [{ tipe := .MX, cls := .CH, name := [[97], [98, 99]] }],
    answers := [{ name := [[120]], tipe := .CNAME, cls := .HS, ttl := 300,
                  rdlength := 3, rdata := [1, 2, 3] }] }

/-- C1 witness: the round trip evaluated on a concrete two-label
message. -/
theorem c1_round_trip_witness :
    Message.valid c1okMsg ∧
    Message.parse (Message.to_bytes c1okMsg) = .ok ([], c1okMsg) :=
  ⟨by decide, c1_round_trip c1okMsg (by decide) (by decide) (by decide)⟩

/-! ## C2 -/

/-- Header with `qdcount = 1` followed by a pointer at offset 12 that
points to itself. -/
def c2selfPkt : Bytes :=
  [0, 0, 0, 0, 0, 1, 0, 0, 0, 0, 0, 0] ++ [192, 12]

/-- The name at offset 12 points to offset 14, where a second pointer
points back to offset 12 — a two-pointer cycle. -/
def c2cyclePkt : Bytes :=
  [0, 0, 0, 0, 0, 1, 0, 0, 0, 0, 0, 0] ++ [192, 14, 192, 12]

/-- A pointer into the header: a plain dangling pointer, no cycle. -/
def c2danglingPkt : Bytes :=
  [0, 0, 0, 0, 0, 1, 0, 0, 0, 0, 0, 0] ++ [192, 5]

/-- C2 counterexample: decoding the self-pointer and the two-pointer
cycle terminates with `Failure(Tag)` — the *same* error value a plain
dangling pointer produces.  There is no distinct `CompressionLoop`
error anywhere in the code, so the claim's "fails with the
CompressionLoop error" is false; the loop is rejected as an unresolved
(dangling) pointer. -/
theorem c2_counterexample :
    Message.parse c2selfPkt = .error (.NFailure .Tag) ∧
    Message.parse c2cyclePkt = .error (.NFailure .Tag) ∧
    Message.parse c2danglingPkt = .error (.NFailure .Tag) := by
  exact ⟨rfl, rfl, rfl⟩

/-- C2 (amended): name decoding always terminates — a pointer never
re-enters the input; it is a single table lookup — and a pointer whose
target offset is not recorded in the compression table (which is the
case for a self-pointer or any forward cycle, since a name's own
offsets are recorded only after it finishes) fails with the
`Failure(Tag)` parse error, the same error as a dangling pointer,
rather than hanging or reading out of bounds. -/
theorem c2_pointer_loops :
    (∀ (tbl : LTable) (p hi lo : Nat) (rest : Bytes),
      hi < 256 → is_compressed_label hi = true →
      lookupA (((hi &&& 63) <<< 8) ||| (lo % 256)) tbl = none →
      parse_label_seq tbl (hi :: lo :: rest) p
        = .error (.NFailure .Tag)) ∧
    Message.parse c2selfPkt = .error (.NFailure .Tag) ∧
    Message.parse c2cyclePkt = .error (.NFailure .Tag) :=
  ⟨fun tbl p hi lo rest h1 h2 h3 =>
    parse_label_seq_dangling tbl p hi lo rest h1 h2 h3, rfl, rfl⟩

/-- C2 witness: the general unresolved-pointer statement applied to the
self-pointer bytes of `c2selfPkt` (offset 12, empty table). -/
theorem c2_pointer_loops_witness :
    parse_label_seq [] [192, 12] 12 = .error (.NFailure .Tag) :=
  c2_pointer_loops.1 [] 12 192 12 [] (by decide) (by decide) (by decide)

/-! ## C9 -/

theorem message_parse_counts (b rest : Bytes) (m : Message)
    (h : Message.parse b = .ok (rest, m)) :
    m.questions.length = m.header.qdcount ∧
    m.answers.length = m.header.ancount := by
  simp only [Message.parse, Bind.bind] at h
  cases h0 : Header.parse b with
  | error e => rw [h0] at h; simp [Except.bind] at h
  | ok x =>
    obtain ⟨r0, hd⟩ := x
    rw [h0] at h
    simp only [Except.bind] at h
    cases h1 : parseQuestions hd.qdcount [] r0 12 with
    | error e => rw [h1] at h; simp at h
    | ok x =>
      obtain ⟨r1, qs, tblx, offx⟩ := x
      rw [h1] at h
      simp only [Except.bind] at h
      cases h2 : parseAnswers hd.ancount tblx r1 offx with
      | error e => rw [h2] at h; simp at h
      | ok x =>
        obtain ⟨r2, as_, tbly, offy⟩ := x
        rw [h2] at h
        simp only [Except.ok.injEq, Prod.mk.injEq] at h
        obtain ⟨rfl, rfl⟩ := h
        exact ⟨parseQuestions_length _ _ _ _ _ _ _ _ h1,
               parseAnswers_length _ _ _ _ _ _ _ _ h2⟩

/-- C9: a successful `Message::parse` reads exactly `qdcount` questions
and `ancount` answers and then stops: the decoded sections have exactly
those lengths, and any bytes appended after the consumed part — the
authority/additional sections announced by `nscount`/`arcount`
included — are returned unconsumed without affecting the result or
making the decode fail. -/
theorem c9_reads_exactly_counts (b rest : Bytes) (m : Message)
    (h : Message.parse b = .ok (rest, m)) :
    m.questions.length = m.header.qdcount ∧
    m.answers.length = m.header.ancount ∧
    ∀ ex, Message.parse (b ++ ex) = .ok (rest ++ ex, m) :=
  ⟨(message_parse_counts b rest m h).1,
   (message_parse_counts b rest m h).2,
   fun ex => message_parse_append b ex rest m h⟩

def c9pkt : Bytes :=
  [0, 0, 0, 0, 0, 0, 0, 0, 0, 9, 0, 3] ++ [7, 7]

def c9msg : Message :=
  { header := { zeroHeader with nscount := 9, arcount := 3 },
    questions := [], answers := [] }

/-- C9 witness: a header announcing 9 authority and 3 additional
records followed by two trailing bytes parses successfully, returns the
trailing bytes unconsumed, and appending one more byte leaves the
message unchanged. -/
theorem c9_reads_exactly_counts_witness :
    Message.parse c9pkt = .ok ([7, 7], c9msg) ∧
    c9msg.questions.length = c9msg.header.qdcount ∧
    c9msg.answers.length = c9msg.header.ancount ∧
    Message.parse (c9pkt ++ [5]) = .ok ([7, 7] ++ [5], c9msg) := by
  have h := c9_reads_exactly_counts c9pkt [7, 7] c9msg (by rfl)
  exact ⟨by rfl, h.1, h.2.1, h.2.2 [5]⟩


/-! ## C6 -/

theorem prefLen_lt_encLabels (n : List Bytes) (i : Nat) (h : i < n.length) :
    prefLen n i < (encLabels n).length := by
  induction n generalizing i with
  | nil => simp at h
  | cons l ls ih =>
    match i with
    | 0 =>
      simp [prefLen, encLabels]
    | i + 1 =>
      simp only [List.length_cons] at h
      have := ih i (by omega)
      simp only [prefLen, encLabels, List.take_succ_cons, List.map_cons,
        List.sum_cons, List.flatMap_cons, List.length_append,
        List.length_cons] at this ⊢
      omega

def c6bytes : Bytes := [2, 97, 98, 1, 99, 0, 1, 100, 192, 15]

def c6tbl1 : LTable := [(12, [97, 98, 46, 99]), (15, [99])]

def c6tbl2 : LTable :=
  [(18, [100]), (21, [100, 46, 99]), (12, [97, 98, 46, 99]), (15, [99])]

/-- C6 counterexample: decode `ab.c` at offset 12, then `d` followed by
a pointer to offset 15 (the suffix `c`).  The claim requires the entry
recorded for the label start 18 (`d`) to be the full suffix `d.c`
(pointer-resolved labels included); the table instead keeps just `d`,
and the full name `d.c` is recorded at offset 21 — the pointer's second
byte, not a label start. -/
theorem c6_counterexample :
    parse_label_seq [] c6bytes 12
      = .ok ([1, 100, 192, 15], [[97, 98], [99]], c6tbl1, 18) ∧
    parse_label_seq c6tbl1 [1, 100, 192, 15] 18
      = .ok ([], [[100], [99]], c6tbl2, 22) ∧
    lookupA 18 c6tbl2 = some [100] ∧
    some ([100] : Bytes) ≠ some (joinDot [[100], [99]]) := by
  exact ⟨rfl, rfl, rfl, by decide⟩

/-- C6 (amended): after a name of plain labels is decoded, the table
does map every label-start offset to the full suffix beginning there,
later labels of the same name included.  But when a name ends in a
compression pointer, the pointer-resolved suffix is *not* appended to
the entries of the earlier labels — each keeps only the labels read
directly — and one extra entry holding the whole name is recorded at
the offset of the pointer's second byte. -/
theorem c6_table_suffixes :
    (∀ (l : Bytes) (ls : List Bytes) (tbl : LTable) (p : Nat)
      (rest : Bytes),
      (∀ x ∈ l :: ls, labelWf x) →
      ∃ tbl2 off2,
        parse_label_seq tbl (encodeName (l :: ls) ++ rest) p
          = .ok (rest, l :: ls, tbl2, off2) ∧
        ∀ i < (l :: ls).length,
          lookupA (p + prefLen (l :: ls) i) tbl2
            = some (joinDot ((l :: ls).drop i))) ∧
    (∀ (l : Bytes) (ls : List Bytes) (tbl : LTable) (p hi lo : Nat)
      (sfx : Bytes) (rest : Bytes),
      (∀ x ∈ l :: ls, labelWf x) → hi < 256 →
      is_compressed_label hi = true →
      lookupA (((hi &&& 63) <<< 8) ||| (lo % 256)) tbl = some sfx →
      ∃ tbl2 off2,
        parse_label_seq tbl (encLabels (l :: ls) ++ hi :: lo :: rest) p
          = .ok (rest, (l :: ls) ++ [sfx], tbl2, off2) ∧
        (∀ i < (l :: ls).length,
          lookupA (p + prefLen (l :: ls) i) tbl2
            = some (joinDot ((l :: ls).drop i))) ∧
        lookupA (p + (encLabels (l :: ls)).length + 1) tbl2
          = some (joinDot ((l :: ls) ++ [sfx]))) := by
  constructor
  · intro l ls tbl p rest hwf
    refine ⟨_, _, parse_label_seq_enc l ls tbl p rest hwf, ?_⟩
    intro i hi
    exact lookupA_commit_of_mem _ _ _ _
      (nodupKeys_specMap _ _ _ (by simp [nodupKeys, keysA]))
      (lookupA_specMap_self (l :: ls) [] p i hi)
  · intro l ls tbl p hi lo sfx rest hwf hhi hcomp hlook
    refine ⟨_, _,
      parse_label_seq_enc_ptr l ls tbl p hi lo sfx rest hwf hhi hcomp hlook,
      ?_, ?_⟩
    · intro i hilt
      apply lookupA_commit_of_mem
      · exact nodupKeys_insertA _ _ _
          (nodupKeys_specMap _ _ _ (by simp [nodupKeys, keysA]))
      · rw [lookupA_insertA, if_neg ?_,
          lookupA_specMap_self (l :: ls) [] p i hilt]
        have := prefLen_lt_encLabels (l :: ls) i hilt
        omega
    · apply lookupA_commit_of_mem
      · exact nodupKeys_insertA _ _ _
          (nodupKeys_specMap _ _ _ (by simp [nodupKeys, keysA]))
      · rw [lookupA_insertA, if_pos rfl]


/-- C6 witness: both parts of the amended statement evaluated on
concrete names — `a.b` decoded at offset 12 (suffix entry at 14 holds
`b`), and `d` + pointer-to-`c` decoded at offset 20 (entry 20 holds
only `d`; the full `d.c` sits at 23, the pointer's second byte). -/
theorem c6_table_suffixes_witness :
    lookupA 14 [(12, [97, 46, 98]), (14, [98])] = some (joinDot [[98]]) ∧
    lookupA 20 [(20, [100]), (23, [100, 46, 99]), (5, [99])]
      = some (joinDot [[100]]) ∧
    lookupA 23 [(20, [100]), (23, [100, 46, 99]), (5, [99])]
      = some (joinDot ([[100]] ++ [[99]])) := by
  obtain ⟨tbl2, off2, heq, hlook⟩ :=
    c6_table_suffixes.1 [97] [[98]] [] 12 [] (by decide)
  obtain ⟨tbl3, off3, heq2, hlook2, hptr⟩ :=
    c6_table_suffixes.2 [100] [] [(5, [99])] 20 192 5 [99] [] (by decide)
      (by decide) (by decide) (by decide)
  have e1 : parse_label_seq [] (encodeName [[97], [98]] ++ []) 12
      = .ok ([], [[97], [98]], [(12, [97, 46, 98]), (14, [98])], 17) := rfl
  rw [heq] at e1
  simp only [Except.ok.injEq, Prod.mk.injEq, true_and] at e1
  have e2 : parse_label_seq [(5, [99])]
        (encLabels [[100]] ++ 192 :: 5 :: []) 20
      = .ok ([], [[100], [99]],
          [(20, [100]), (23, [100, 46, 99]), (5, [99])], 24) := rfl
  rw [heq2] at e2
  simp only [Except.ok.injEq, Prod.mk.injEq, true_and] at e2
  refine ⟨?_, ?_, ?_⟩
  · have h := hlook 1 (by decide)
    rw [e1.1] at h
    simpa [prefLen] using h
  · have h := hlook2 0 (by decide)
    rw [e2.2.1] at h
    simpa [prefLen] using h
  · have h := hptr
    rw [e2.2.1] at h
    simpa [encLabels] using h


/-! ## C7 -/

def c7hdr : Header := { zeroHeader with qdcount := 2 }

/-- Two questions: `a.b.c` (type A, class IN), then a pointer to
offset 14 — the suffix `b.c` of the first name — with type/class A/IN. -/
def c7pkt : Bytes :=
  [0, 0, 0, 0, 0, 2, 0, 0, 0, 0, 0, 0] ++
    [1, 97, 1, 98, 1, 99, 0] ++ [0, 1, 0, 1] ++ [192, 14] ++ [0, 1, 0, 1]

def c7decoded : Message :=
  { header := c7hdr,
    questions := [ { tipe := .A, cls := .IN, name := [[97], [98], [99]] },
                   { tipe := .A, cls := .IN, name := [[98, 46, 99]] } ],
    answers := [] }

/-- C7 counterexample: decoding succeeds, but the second question's
name is the *single* label `"b.c"` (one element containing a dot),
while the pointed-to suffix of the first name is the two-label sequence
`[b, c]` — the sequences differ even though their dotted strings are
identical. -/
theorem c7_counterexample :
    Message.parse c7pkt = .ok ([], c7decoded) ∧
    ([[98, 46, 99]] : List Bytes) ≠ ([[97], [98], [99]] : List Bytes).drop 1 ∧
    joinDot [[98, 46, 99]] = joinDot (([[97], [98], [99]] : List Bytes).drop 1) := by
  exact ⟨rfl, by decide, by decide⟩

/-- Packet skeleton for the general statement: header with two
questions, the first a plain name `n`, the second a pointer to the
label of `n` at offset `12 + prefLen n i`. -/
def c7packet (n : List Bytes) (i : Nat) : Bytes :=
  Header.to_bytes c7hdr ++
    (Question.to_bytes { tipe := .A, cls := .IN, name := n } ++
      (192 :: (12 + prefLen n i) :: [0, 1, 0, 1]))

/-- The message the decoder produces for `c7packet`: the second
question's name is a single label holding the dotted suffix string. -/
def c7expected (l : Bytes) (ls : List Bytes) (i : Nat) : Message :=
  { header := c7hdr,
    questions := [ { tipe := .A, cls := .IN, name := l :: ls },
                   { tipe := .A, cls := .IN,
                     name := [joinDot ((l :: ls).drop i)] } ],
    answers := [] }

/-- C7 (amended): for every message whose second question is a pointer
to the `i`-th label of the first question's (well-formed, pointer-free)
name, decoding succeeds and the two names agree as dotted strings — but
the second question's name is a single label holding the whole suffix
string, not the suffix's label sequence (they differ whenever the
suffix has at least two labels). -/
theorem c7_pointer_to_suffix (l : Bytes) (ls : List Bytes) (i : Nat)
    (hwf : ∀ x ∈ l :: ls, labelWf x) (hilt : i < (l :: ls).length)
    (hlo : 12 + prefLen (l :: ls) i < 256) :
    Message.parse (c7packet (l :: ls) i) = .ok ([], c7expected l ls i) ∧
    joinDot [joinDot ((l :: ls).drop i)] = joinDot ((l :: ls).drop i) ∧
    (2 ≤ ((l :: ls).drop i).length →
      [joinDot ((l :: ls).drop i)] ≠ (l :: ls).drop i) := by
  refine ⟨?_, by simp [joinDot], ?_⟩
  swap
  · intro h2 hcontra
    have hlen := congrArg List.length hcontra
    simp only [List.length_cons, List.length_nil, List.length_drop]
      at hlen h2
    omega
  · have hlook : lookupA (((192 &&& 63) <<< 8) |||
        ((12 + prefLen (l :: ls) i) % 256))
        (commit (specMap [] 12 (l :: ls)) [])
        = some (joinDot ((l :: ls).drop i)) := by
      have hmod : (12 + prefLen (l :: ls) i) % 256
          = 12 + prefLen (l :: ls) i := Nat.mod_eq_of_lt hlo
      rw [hmod, show ((192 &&& 63) <<< 8) = 0 from rfl, Nat.zero_or]
      exact lookupA_commit_of_mem _ _ _ _
        (nodupKeys_specMap _ _ _ (by simp [nodupKeys, keysA]))
        (lookupA_specMap_self (l :: ls) [] 12 i hilt)
    simp only [c7packet, Message.parse, Bind.bind]
    rw [header_parse_to_bytes c7hdr _ (by decide) (by decide) (by decide)
      (by decide) (by decide) (by decide) (by decide) (by decide)]
    simp only [Except.bind]
    rw [show c7hdr.qdcount = 2 from rfl, show c7hdr.ancount = 0 from rfl,
      show (2 : Nat) = 0 + 1 + 1 from rfl]
    simp only [parseQuestions]
    rw [question_parse_to_bytes { tipe := .A, cls := .IN, name := l :: ls }
      [] 12 _ (by simp) (by simpa using hwf)]
    simp only [Bind.bind, Except.bind, Question.parse]
    rw [parse_label_seq_ptr_only (commit (specMap [] 12 (l :: ls)) []) _
      192 (12 + prefLen (l :: ls) i) (joinDot ((l :: ls).drop i))
      [0, 1, 0, 1] (by decide) (by decide) hlook]
    simp [be_u16, be_u8, Bind.bind, Except.bind, QType.from_value,
      ResourceClass.from_value, parseQuestions, parseAnswers, c7expected]


/-- C7 witness: the amended statement on `a.b.c` with a pointer to its
second label (suffix `b.c`). -/
theorem c7_pointer_to_suffix_witness :
    Message.parse (c7packet [[97], [98], [99]] 1)
      = .ok ([], c7expected [97] [[98], [99]] 1) ∧
    joinDot [joinDot (([[97], [98], [99]] : List Bytes).drop 1)]
      = joinDot (([[97], [98], [99]] : List Bytes).drop 1) ∧
    (2 ≤ (([[97], [98], [99]] : List Bytes).drop 1).length →
      [joinDot (([[97], [98], [99]] : List Bytes).drop 1)]
        ≠ ([[97], [98], [99]] : List Bytes).drop 1) :=
  c7_pointer_to_suffix [97] [[98], [99]] 1 (by decide) (by decide)
    (by decide)

end DnsRs
